import Mathlib

/-!
Verification of the LegalEase document analysis and comparison engine.

This file gives a shallow embedding, in Lean 4, of the core algorithmic
components of the repository:

* the Risk Rules Engine (`analyzeRiskByRules`, from `utils/aiAnalyzer.js`),
* the Clause Analyzer fusion (`analyzeClause`),
* the Clause Segmenter (`splitIntoClause`, from `utils/documentProcessor.js`),
* the risk-distribution aggregation and summary fallback
  (from `routes/analysis.js` and `generateDocumentSummary`),
* the clause-type-aware Comparison Engine (`compareClausesDetailed`,
  `generateClauseComparison`, `analyzeDifference`,
  `generatePlainEnglishDifference`, `getHigherRisk`),
* a discrete-time model of the external-call scheduler (`processQueue`).

Modelling conventions:

* JavaScript strings are `String` / `List Char`; `toLowerCase` is
  `Char.toLower` (all inputs of interest are ASCII).
* JavaScript numbers used here are small non-negative integers, so they are
  embedded as `ℕ`.  The floating-point token estimate `words.length * 1.3`
  is embedded exactly as the rational comparison `13 * words.length ≤
  10 * maxTokens`, and `Math.floor(maxTokens / 1.3)` as `(10 * maxTokens) / 13`
  (natural division); at the values the program uses these agree with the
  IEEE double computations.
* Code that can throw is embedded in `Except String`; a JavaScript
  `ReferenceError` (reading an undeclared identifier) is an `Except.error`.
* `await`-based code is embedded by passing the already-resolved outcome of
  the external call as an explicit `Except`/parameter.
-/

/-! ## Risk levels

The three risk levels `'Low' | 'Medium' | 'High'` used throughout the source.
-/

inductive Risk where
  | low
  | medium
  | high
deriving DecidableEq, Repr

/-- The numeric encoding `{ 'Low': 1, 'Medium': 2, 'High': 3 }` used by
`analyzeClause` and `getHigherRisk` in the source. -/
def riskNum : Risk → ℕ
  | .low => 1
  | .medium => 2
  | .high => 3

/-- Display string of a risk level, as stored in the JS objects. -/
def riskStr : Risk → String
  | .low => "Low"
  | .medium => "Medium"
  | .high => "High"

/-- Lower-case display string (`riskLevel.toLowerCase()`). -/
def riskLowerStr : Risk → String
  | .low => "low"
  | .medium => "medium"
  | .high => "high"

/-- Specification-side maximum of two risk levels under the ordering
Low < Medium < High.  This is the "escalate, never downgrade" fusion the
specification describes; the source computes it differently (via the
numeric table), and the theorems below relate the two. -/
def riskMax : Risk → Risk → Risk
  | .high, _ => .high
  | _, .high => .high
  | .medium, _ => .medium
  | _, .medium => .medium
  | .low, .low => .low

/-- Embedding of the fusion expression in `analyzeClause`:
`riskLevels[rulesRisk] >= riskLevels[aiRisk] ? rulesRisk : aiRisk`. -/
def fuseRisk (rulesRisk aiRisk : Risk) : Risk :=
  if riskNum aiRisk ≤ riskNum rulesRisk then rulesRisk else aiRisk

/-- Embedding of `getHigherRisk(risk1, risk2)` from the source: looks up both
levels in the numeric table (defaulting to 1, which cannot happen for the
typed levels), takes `Math.max`, and maps the number back to its level. -/
def getHigherRisk (risk1 risk2 : Risk) : Risk :=
  let higherLevel := max (riskNum risk1) (riskNum risk2)
  if higherLevel = 3 then .high else if higherLevel = 2 then .medium else .low

/-! ## Character and list utilities -/

/-- JavaScript `\s` restricted to the ASCII whitespace characters that can
occur in the analysed text (space, newline, tab, carriage return, vertical
tab, form feed). -/
def jsWs (c : Char) : Bool :=
  c = ' ' || c = '\n' || c = '\t' || c = '\r' || c = '\x0b' || c = '\x0c'

/-- `needle` occurs as a contiguous substring of `hay`
(JavaScript `hay.includes(needle)`). -/
def containsSub (hay needle : List Char) : Bool :=
  match hay with
  | [] => needle.isEmpty
  | _ :: t => needle.isPrefixOf hay || containsSub t needle

/-- `s.toLowerCase()` as a character list. -/
def lowerChars (s : String) : List Char := s.data.map Char.toLower

/-- First-occurrence deduplication, auxiliary with the set of already seen
elements. -/
def jsDedupAux (seen : List String) : List String → List String
  | [] => []
  | x :: r => if x ∈ seen then jsDedupAux seen r else x :: jsDedupAux (x :: seen) r

/-- JavaScript `[...new Set(arr)]`: removes duplicates keeping the first
occurrence of each element. -/
def jsDedup (l : List String) : List String := jsDedupAux [] l

/-- Count of leading characters satisfying `p`. -/
def countWhileL (p : Char → Bool) : List Char → ℕ
  | [] => 0
  | c :: r => if p c then countWhileL p r + 1 else 0

/-- Drop trailing characters satisfying `jsWs` (structural formulation of the
right half of JavaScript `String.prototype.trim`). -/
def dropTrailingWs : List Char → List Char
  | [] => []
  | c :: r =>
    let r' := dropTrailingWs r
    if r' = [] && jsWs c then [] else c :: r'

/-- JavaScript `s.trim()`: remove leading and trailing whitespace. -/
def jsTrim (l : List Char) : List Char := dropTrailingWs (l.dropWhile jsWs)

/-- Replace every maximal run of characters satisfying `p` by the single
character `rep`; the Boolean argument records whether we are inside a run. -/
def collapseRunsAux (p : Char → Bool) (rep : Char) : List Char → Bool → List Char
  | [], _ => []
  | c :: r, inRun =>
    if p c then
      if inRun then collapseRunsAux p rep r true
      else rep :: collapseRunsAux p rep r true
    else c :: collapseRunsAux p rep r false

/-- JavaScript `s.replace(/\s+/g, ' ')`. -/
def collapseWs (l : List Char) : List Char := collapseRunsAux jsWs ' ' l false

/-- JavaScript `s.replace(/\n+/g, '\n')`. -/
def collapseNl (l : List Char) : List Char := collapseRunsAux (fun c => c = '\n') '\n' l false

/-- The whitespace normalisation performed at the top of `splitIntoClause`:
`text.replace(/\s+/g, ' ').replace(/\n+/g, '\n').trim()`. -/
def jsNormalize (l : List Char) : List Char := jsTrim (collapseNl (collapseWs l))

/-- Splitting on whitespace runs, dropping empty pieces; the accumulator holds
the current word reversed.  This is `s.split(/\s+/)` for a string `s` with no
leading whitespace (the source always splits `clause.trim()`, and for such
strings the JavaScript result contains no empty pieces). -/
def wordsAux : List Char → List Char → List (List Char)
  | [], cur => if cur = [] then [] else [cur.reverse]
  | c :: r, cur =>
    if jsWs c then
      if cur = [] then wordsAux r [] else cur.reverse :: wordsAux r []
    else wordsAux r (c :: cur)

/-- The word list of a clause: `clause.trim().split(/\s+/)`. -/
def wordsOf (l : List Char) : List (List Char) := wordsAux l []

/-- Join a list of words with single spaces (the concatenation order used to
state the segmenter round-trip law; `words.join(' ')` in the source). -/
def joinSp : List (List Char) → List Char
  | [] => []
  | [w] => w
  | w :: ws => w ++ ' ' :: joinSp ws

/-- Indexing helper (`forEach((x, i) => ...)` index bookkeeping). -/
def enumFrom (n : ℕ) : List α → List (ℕ × α)
  | [] => []
  | x :: r => (n, x) :: enumFrom (n + 1) r

/-! ## Risk Rules Engine (`analyzeRiskByRules`) -/

/-- `this.riskKeywords.high` from the `AIAnalyzer` constructor. -/
def highRiskKeywords : List String :=
  ["penalty", "seize", "collateral", "waiver", "indemnity", "forfeit",
   "liquidated damages", "acceleration", "default", "breach",
   "termination without cause", "unlimited liability", "personal guarantee",
   "cross-default", "material adverse change", "force majeure exclusion"]

/-- `this.riskKeywords.medium`. -/
def mediumRiskKeywords : List String :=
  ["late fee", "interest rate", "security deposit", "arbitration",
   "jurisdiction", "governing law", "assignment", "modification",
   "notice period", "renewal terms", "insurance requirements",
   "compliance obligations", "reporting requirements"]

/-- `this.riskKeywords.low`. -/
def lowRiskKeywords : List String :=
  ["payment terms", "delivery", "warranty", "maintenance",
   "standard terms", "mutual agreement", "good faith",
   "reasonable efforts", "business days", "written notice"]

structure RulesVerdict where
  riskLevel : Risk
  riskScore : ℕ
  detectedKeywords : List String
deriving DecidableEq, Repr

/-- One `forEach` pass of `analyzeRiskByRules`: for every keyword of `kws`
contained in `text` (both lower-cased), add weight `w` to the score and
append the keyword. -/
def scanKeywords (text : List Char) (kws : List String) (w : ℕ)
    (acc : ℕ × List String) : ℕ × List String :=
  kws.foldl
    (fun a k =>
      if containsSub text (lowerChars k) then (a.1 + w, a.2 ++ [k]) else a)
    acc

/-- Specification-side view of one pass: the sublist of keywords matched in
`text`. -/
def matchedIn (text : List Char) (kws : List String) : List String :=
  kws.filter (fun k => containsSub text (lowerChars k))

/-- Embedding of `analyzeRiskByRules(clauseText)`: case-insensitive substring
match against the three keyword lists with weights 3/2/1, thresholds 6 and 3,
and first-occurrence deduplication of the matched keywords. -/
def analyzeRiskByRules (clauseText : String) : RulesVerdict :=
  let text := lowerChars clauseText
  let s1 := scanKeywords text highRiskKeywords 3 (0, [])
  let s2 := scanKeywords text mediumRiskKeywords 2 s1
  let s3 := scanKeywords text lowRiskKeywords 1 s2
  let riskLevel := if 6 ≤ s3.1 then Risk.high else if 3 ≤ s3.1 then Risk.medium else Risk.low
  ⟨riskLevel, s3.1, jsDedup s3.2⟩

/-! ## Clause Analyzer (`analyzeClause`) -/

/-- The structured result requested from the external reasoner
(`analyzeClauseWithAI`'s parsed return value); per the data model its risk
level is one of the three levels. -/
structure ExternalVerdict where
  explanation : String
  riskLevel : Risk
  reason : String
  importantTerms : List String
deriving DecidableEq, Repr

/-- The per-clause analysis record built by `analyzeClause`. -/
structure ClauseA where
  page : ℕ
  clause : String
  explanation : String
  risk_ai : Risk
  risk_rules : Risk
  final_risk : Risk
  reason : String
  keywords : List String
  important_terms : List String
deriving DecidableEq, Repr

/-- Embedding of `generateRulesBasedExplanation(clauseText, rulesAnalysis)`. -/
def generateRulesBasedExplanation (rulesAnalysis : RulesVerdict) : String :=
  if rulesAnalysis.detectedKeywords = [] then
    "This appears to be a standard contract clause with no major risk indicators detected."
  else
    "This clause contains " ++ riskLowerStr rulesAnalysis.riskLevel ++ " risk terms: "
      ++ String.intercalate ", " rulesAnalysis.detectedKeywords ++ ". "
      ++ (match rulesAnalysis.riskLevel with
          | .high => "These terms may significantly impact your rights or obligations. Consider legal review."
          | .medium => "These terms require attention and understanding before signing."
          | .low => "These are generally standard terms but worth understanding.")

/-- The deterministic `ExternalVerdict` substituted by `analyzeClause` when
the external call fails (its `catch (aiError)` branch). -/
def aiFallback (rulesAnalysis : RulesVerdict) : ExternalVerdict :=
  { explanation := generateRulesBasedExplanation rulesAnalysis
    riskLevel := rulesAnalysis.riskLevel
    reason := "Rules-based analysis: "
      ++ (if 0 < rulesAnalysis.detectedKeywords.length then
            "Contains keywords: " ++ String.intercalate ", " rulesAnalysis.detectedKeywords
          else "Standard contract clause")
    importantTerms := rulesAnalysis.detectedKeywords }

/-- Embedding of `analyzeClause(clauseText, page, documentType)`.  The
already-resolved outcome of the external call is the explicit argument
`ext` (`Except.error` = the awaited promise rejected).  The outer
`try`/`catch` of the source is unreachable here because every step of the
embedded body is total. -/
def analyzeClause (clauseText : String) (page : ℕ)
    (ext : Except String ExternalVerdict) : ClauseA :=
  let rulesAnalysis := analyzeRiskByRules clauseText
  let aiAnalysis := match ext with
    | .ok v => v
    | .error _ => aiFallback rulesAnalysis
  { page
    clause := clauseText
    explanation := aiAnalysis.explanation
    risk_ai := aiAnalysis.riskLevel
    risk_rules := rulesAnalysis.riskLevel
    final_risk := fuseRisk rulesAnalysis.riskLevel aiAnalysis.riskLevel
    reason := aiAnalysis.reason
    keywords := rulesAnalysis.detectedKeywords
    important_terms := aiAnalysis.importantTerms }

/-! ## Risk distribution and overall risk (`routes/analysis.js`) -/

structure RiskDist where
  low : ℕ
  medium : ℕ
  high : ℕ
deriving DecidableEq, Repr

/-- One step of the `analyzedClauses.forEach` loop computing the
distribution.  `clause.final_risk.toLowerCase()` is always one of the three
bucket names for the typed levels, so the `hasOwnProperty` guard of the
source always passes. -/
def riskDistStep (rd : RiskDist) (c : ClauseA) : RiskDist :=
  match c.final_risk with
  | .low => { rd with low := rd.low + 1 }
  | .medium => { rd with medium := rd.medium + 1 }
  | .high => { rd with high := rd.high + 1 }

/-- Embedding of the risk-distribution computation of `routes/analysis.js`. -/
def riskDistribution (clauses : List ClauseA) : RiskDist :=
  clauses.foldl riskDistStep ⟨0, 0, 0⟩

/-- Embedding of the overall-risk computation of `routes/analysis.js`. -/
def overallRiskOf (rd : RiskDist) : Risk :=
  if 0 < rd.high then .high else if rd.low < rd.medium then .medium else .low

/-! ## Document Summarizer (`generateDocumentSummary` and the route) -/

/-- The summary object shape returned by `generateDocumentSummary`. -/
structure SummaryData where
  key_findings : List String
  recommendations : List String
  overall_risk : String
  summary : String
deriving DecidableEq, Repr

/-- The span from the first `'\x7b'` to the last `'\x7d'` of the response
text — the `text.match(/\{[\s\S]*\}/)` extraction used before `JSON.parse`. -/
def braceSpan (raw : String) : Option String :=
  let l := raw.data
  let pre := l.dropWhile (fun c => c ≠ '{')
  let post := (pre.reverse.dropWhile (fun c => c ≠ '}')).reverse
  if post = [] then none else some ⟨post⟩

/-- Embedding of `generateDocumentSummary(clauses, documentType)`.
`jsonParse` stands for the external `JSON.parse` library call (`none` =
parse threw); `ext` is the resolved outcome of the rate-limited external
request (`Except.error` = it rejected, e.g. with `QUOTA_EXCEEDED`).  The
result is `Except`-valued to record whether an exception escapes; the
source's `catch` converts every rejection into the plain fallback object,
which is why the result is provably always `Except.ok`. -/
def generateDocumentSummaryE (jsonParse : String → Option SummaryData)
    (ext : Except String String) : Except String SummaryData :=
  match ext with
  | .ok raw =>
    match braceSpan raw >>= jsonParse with
    | some d => .ok d
    | none =>
      .ok ⟨["Document analysis completed"], ["Review all clauses carefully"],
           "Medium", "Contract analysis completed successfully."⟩
  | .error _ =>
    .ok ⟨["Unable to generate summary"], ["Manual review recommended"],
         "Medium", "Summary generation failed."⟩

/-- The rules-based fallback template written inline in the comparison route
(`catch (summaryError)` branch computing `summaryData1` / `summaryData2`):
findings enumerate the clause count and the per-level counts, and the
recommendations are keyed on the overall risk. -/
def routeQuotaFallback (n : ℕ) (ovr : Risk) (rd : RiskDist) : SummaryData :=
  let s := riskStr ovr
  { key_findings :=
      [s!"Document contains {n} clauses",
       s!"Overall risk level: {s}",
       s!"High risk clauses: {rd.high}",
       s!"Medium risk clauses: {rd.medium}",
       s!"Low risk clauses: {rd.low}"]
    recommendations :=
      if ovr = .high then
        ["Consider legal review due to high-risk clauses",
         "Pay special attention to penalty and liability clauses"]
      else if ovr = .medium then
        ["Review medium-risk clauses carefully",
         "Consider professional consultation for complex terms"]
      else
        ["Standard contract terms detected", "Generally acceptable risk level"]
    overall_risk := ""
    summary := "" }

/-- The summary block stored on the document by the route. -/
structure RouteSummary where
  totalClauses : ℕ
  riskDistribution : RiskDist
  overallRisk : Risk
  keyFindings : List String
  recommendations : List String
deriving DecidableEq, Repr

/-- Embedding of the route-level summary construction
(`routes/analysis.js`, the `summaryData1` computation and the subsequent
`doc1.analysis.summary` assignment): call `generateDocumentSummary`, and if
(and only if) that call rejects, substitute the inline rules-based template. -/
def routeSummarizeE (jsonParse : String → Option SummaryData)
    (clauses : List ClauseA) (ext : Except String String) :
    Except String RouteSummary :=
  let rd := riskDistribution clauses
  let ovr := overallRiskOf rd
  match generateDocumentSummaryE jsonParse ext with
  | .ok sd =>
    .ok { totalClauses := clauses.length, riskDistribution := rd, overallRisk := ovr,
          keyFindings := sd.key_findings, recommendations := sd.recommendations }
  | .error _ =>
    let sd := routeQuotaFallback clauses.length ovr rd
    .ok { totalClauses := clauses.length, riskDistribution := rd, overallRisk := ovr,
          keyFindings := sd.key_findings, recommendations := sd.recommendations }

/-! ## Clause Segmenter (`splitIntoClause`, `utils/documentProcessor.js`)

The source splits on six regular expressions in order.  Each one is embedded
as a matcher `List Char → Option ℕ` returning the length of the (leftmost,
greedy) match starting at the given position, exactly as the JavaScript
regex engine would match it there.  Note that every one of the six patterns
requires a literal newline somewhere in its match.
-/

/-- Matcher for `/\n\s*\d+\.\s+/g` (numbered clauses).  After the mandatory
newline, `\s*` takes the maximal whitespace run (no backtracking is possible
because a digit is not whitespace), then at least one digit, a period, and at
least one whitespace character (`\s+` greedy). -/
def matchNumbered (l : List Char) : Option ℕ :=
  match l with
  | [] => none
  | c :: rest =>
    if c = '\n' then
      let a := countWhileL jsWs rest
      let r1 := rest.drop a
      let d := countWhileL Char.isDigit r1
      if d = 0 then none
      else
        match r1.drop d with
        | '.' :: r3 =>
          let b := countWhileL jsWs r3
          if b = 0 then none else some (1 + a + d + 1 + b)
        | _ => none
    else none

/-- Matcher for `/\n\s*\([a-z]\)\s+/g` (lettered sub-clauses). -/
def matchLettered (l : List Char) : Option ℕ :=
  match l with
  | [] => none
  | c :: rest =>
    if c = '\n' then
      let a := countWhileL jsWs rest
      match rest.drop a with
      | '(' :: x :: ')' :: r3 =>
        if x.isLower then
          let b := countWhileL jsWs r3
          if b = 0 then none else some (1 + a + 3 + b)
        else none
      | _ => none
    else none

/-- Matcher for `/\n\s*WORD\s+\d+/gi` with `WORD` one of
`Article`/`Section`/`Clause`; `word` is given lower-case and the text is
compared case-insensitively. -/
def matchWordNum (word : List Char) (l : List Char) : Option ℕ :=
  match l with
  | [] => none
  | c :: rest =>
    if c = '\n' then
      let a := countWhileL jsWs rest
      let r1 := rest.drop a
      if (r1.take word.length).map Char.toLower = word then
        let r2 := r1.drop word.length
        let b := countWhileL jsWs r2
        if b = 0 then none
        else
          let d := countWhileL Char.isDigit (r2.drop b)
          if d = 0 then none else some (1 + a + word.length + b + d)
      else none
    else none

/-- Matcher for `/\.\s*\n\s*[A-Z]/g` (sentence break followed by a new
paragraph).  The combined `\s*\n\s*` must cover exactly the maximal
whitespace run after the period (an upper-case letter is not whitespace), so
the pattern matches iff that run contains a newline and is followed by an
upper-case letter; the letter is part of the match. -/
def matchSentenceBreak (l : List Char) : Option ℕ :=
  match l with
  | [] => none
  | c :: rest =>
    if c = '.' then
      let run := rest.takeWhile jsWs
      if run.contains '\n' then
        match rest.drop run.length with
        | u :: _ => if u.isUpper then some (1 + run.length + 1) else none
        | [] => none
      else none
    else none

/-- `String.prototype.split` with a regex: scan left to right, cut the string
at every (non-overlapping, leftmost) match, dropping the matched characters.
`skip` counts match characters still to drop; `cur` holds the current piece
reversed.  All matchers used here match at least two characters. -/
def splitGo (f : List Char → Option ℕ) :
    List Char → ℕ → List Char → List (List Char) → List (List Char)
  | [], _, cur, acc => acc ++ [cur.reverse]
  | c :: rest, skip, cur, acc =>
    if 0 < skip then splitGo f rest (skip - 1) cur acc
    else
      match f (c :: rest) with
      | some n => splitGo f rest (n - 1) [] (acc ++ [cur.reverse])
      | none => splitGo f rest 0 (c :: cur) acc

/-- `clause.split(pattern)`. -/
def splitByRe (f : List Char → Option ℕ) (l : List Char) : List (List Char) :=
  splitGo f l 0 [] []

/-- The ordered list `clauseIndicators` of the source. -/
def clauseIndicators : List (List Char → Option ℕ) :=
  [matchNumbered, matchLettered,
   matchWordNum "article".data, matchWordNum "section".data,
   matchWordNum "clause".data, matchSentenceBreak]

/-- One `clauseIndicators.forEach` pass: split every current clause on the
pattern and keep the pieces whose trimmed length is positive. -/
def applyIndicator (f : List Char → Option ℕ) (clauses : List (List Char)) :
    List (List Char) :=
  (clauses.map (fun cl => (splitByRe f cl).filter (fun s => !(jsTrim s).isEmpty))).flatten

/-- All six splitting passes, each applied to the output of the previous. -/
def markerPass (clauses : List (List Char)) : List (List Char) :=
  clauseIndicators.foldl (fun cs f => applyIndicator f cs) clauses

/-- The segmenter's output unit. -/
structure ClauseUnit where
  index : ℕ
  text : String
  wordCount : ℕ
  estimatedTokens : ℕ
deriving DecidableEq, Repr

/-- `Math.round(n * 1.3)`, exactly (round half up on a value with one decimal
digit). -/
def tokenEstimate (n : ℕ) : ℕ := (13 * n + 5) / 10

/-- The unit pushed for one word-window chunk. -/
def mkChunkUnit (idx : ℕ) (chunk : List Char) : ClauseUnit :=
  { index := idx
    text := ⟨jsTrim chunk⟩
    wordCount := (wordsOf chunk).length
    estimatedTokens := tokenEstimate (wordsOf chunk).length }

/-- The word-window slicing loop
`for (let i = 0; i < words.length; i += chunkSize)`.  The loop is embedded
with explicit fuel because the source loop only advances when `chunkSize` is
positive: with `chunkSize = 0` the JavaScript loop never terminates, which
the embedding reflects by returning `none` for every amount of fuel. -/
def chunkLoop (chunkSize : ℕ) (words : List (List Char)) :
    ℕ → ℕ → ℕ → List ClauseUnit → Option (List ClauseUnit)
  | fuel, i, idx, acc =>
    if i < words.length then
      match fuel with
      | 0 => none
      | fuel' + 1 =>
        let chunk := joinSp ((words.drop i).take chunkSize)
        if (jsTrim chunk).isEmpty then
          chunkLoop chunkSize words fuel' (i + chunkSize) idx acc
        else
          chunkLoop chunkSize words fuel' (i + chunkSize) (idx + 1)
            (acc ++ [mkChunkUnit idx chunk])
    else some acc

/-- Processing of one marker-pass piece: push it as a single unit when its
estimated token count (`words.length * 1.3`) is within `maxTokens`, otherwise
slice it into word windows of `Math.floor(maxTokens / 1.3)` words.  `idx` is
the running `finalClauses.length`; the result carries the updated value. -/
def segmentClause (maxTokens fuel idx : ℕ) (clause : List Char) :
    Option (ℕ × List ClauseUnit) :=
  let words := wordsOf (jsTrim clause)
  if 13 * words.length ≤ 10 * maxTokens then
    some (idx + 1,
      [{ index := idx, text := ⟨jsTrim clause⟩, wordCount := words.length,
         estimatedTokens := tokenEstimate words.length }])
  else
    match chunkLoop ((10 * maxTokens) / 13) words fuel 0 idx [] with
    | some us => some (idx + us.length, us)
    | none => none

/-- The `clauses.forEach` loop building `finalClauses`. -/
def segmentAll (maxTokens fuel : ℕ) : List (List Char) → ℕ → Option (List ClauseUnit)
  | [], _ => some []
  | cl :: rest, idx =>
    match segmentClause maxTokens fuel idx cl with
    | none => none
    | some (idx', us) =>
      match segmentAll maxTokens fuel rest idx' with
      | none => none
      | some vs => some (us ++ vs)

/-- Embedding of `splitIntoClause(text, maxTokens)` with explicit fuel for
the word-window loops (`none` = the JavaScript loop does not terminate). -/
def splitIntoClauseFuel (fuel : ℕ) (text : String) (maxTokens : ℕ) :
    Option (List ClauseUnit) :=
  if (jsTrim text.data).isEmpty then some []
  else segmentAll maxTokens fuel (markerPass [jsNormalize text.data]) 0

/-- `splitIntoClause(text, maxTokens)` with fuel sufficient for every
terminating run (one iteration per word at most, and there are no more words
than characters). -/
def splitIntoClause (text : String) (maxTokens : ℕ) : Option (List ClauseUnit) :=
  splitIntoClauseFuel (text.data.length + 1) text maxTokens

/-! ## Comparison Engine: numeric extraction

`analyzeDifference` and `generatePlainEnglishDifference` extract amounts with
ordered families of regexes, always taking the first match in the text
(`text.match(pattern)` without iterating).  Each pattern is embedded as a
matcher at a fixed position plus a left-to-right scan for the leftmost match.
The matchers return the digit characters of the matched number: the source
post-processes `match[0]` with `.replace(/[^\d,]/g, '').replace(/,/g, '')`,
which keeps exactly the digits, and in every pattern the only digits of the
match are those of the captured number token.
-/

/-- Value of a digit string (`parseInt` on a non-empty all-digit string). -/
def natFromDigits (ds : List Char) : ℕ :=
  ds.foldl (fun n c => 10 * n + (c.toNat - '0'.toNat)) 0

/-- Length of the comma groups `(?:,\d+)*` (greedy) at the head of `l`;
`fuel` is an upper bound on the length of `l` (each step consumes
at least two characters). -/
def commaGroupsLen : ℕ → List Char → ℕ
  | 0, _ => 0
  | fuel + 1, l =>
    match l with
    | ',' :: r =>
      let d := countWhileL Char.isDigit r
      if d = 0 then 0 else (1 + d) + commaGroupsLen fuel (r.drop d)
    | _ => 0

/-- Length of a number token `\d+(?:,\d+)*` (greedy) at the head of `l`. -/
def numTokenLenAt (l : List Char) : Option ℕ :=
  let d := countWhileL Char.isDigit l
  if d = 0 then none else some (d + commaGroupsLen l.length (l.drop d))

/-- Leftmost match: try the position matcher at every suffix, left to
right. -/
def scanFirst (m : List Char → Option α) : List Char → Option α
  | [] => none
  | c :: r =>
    match m (c :: r) with
    | some x => some x
    | none => scanFirst m r

/-- `/₹\s*(\d+(?:,\d+)*)/` at a position: digits of the number. -/
def rentP1At (l : List Char) : Option (List Char) :=
  match l with
  | '₹' :: r =>
    let a := countWhileL jsWs r
    let r1 := r.drop a
    match numTokenLenAt r1 with
    | some n => some ((r1.take n).filter Char.isDigit)
    | none => none
  | _ => none

/-- `/rs\.?\s*(\d+(?:,\d+)*)/i` at a position (the text is already
lower-cased by the caller). -/
def rentP2At (l : List Char) : Option (List Char) :=
  match l with
  | 'r' :: 's' :: r =>
    let r1 := match r with
      | '.' :: rr => rr
      | _ => r
    let a := countWhileL jsWs r1
    let r2 := r1.drop a
    match numTokenLenAt r2 with
    | some n => some ((r2.take n).filter Char.isDigit)
    | none => none
  | _ => none

/-- The currency-unit alternation `(?:rupees?|rs\.?|₹)` at a position. -/
def rupeeUnitAt (l : List Char) : Bool :=
  "rupee".data.isPrefixOf l || "rs".data.isPrefixOf l ||
    (match l with
     | '₹' :: _ => true
     | _ => false)

/-- `/(\d+(?:,\d+)*)\s*(?:rupees?|rs\.?|₹)/i` at a position. -/
def rentP3At (l : List Char) : Option (List Char) :=
  match numTokenLenAt l with
  | none => none
  | some n =>
    let r := l.drop n
    let a := countWhileL jsWs r
    if rupeeUnitAt (r.drop a) then some ((l.take n).filter Char.isDigit) else none

/-- The lazy tail `.*?(\d+(?:,\d+)*)` of `/rent.*?…/`: the first number token
after the current position, on the same line (`.` does not match a
newline). -/
def findNumBeforeNl : List Char → Option (List Char)
  | [] => none
  | c :: r =>
    if c = '\n' then none
    else if c.isDigit then
      match numTokenLenAt (c :: r) with
      | some n => some (((c :: r).take n).filter Char.isDigit)
      | none => none
    else findNumBeforeNl r

/-- `/WORD.*?(\d+(?:,\d+)*)/i` at a position (for `rent`/`monthly`). -/
def wordThenNumAt (word : List Char) (l : List Char) : Option (List Char) :=
  if word.isPrefixOf l then findNumBeforeNl (l.drop word.length) else none

/-- `/(\d{4,})/` at a position (greedy run of at least four digits). -/
def fourDigitRunAt (l : List Char) : Option (List Char) :=
  let d := countWhileL Char.isDigit l
  if 4 ≤ d then some (l.take d) else none

/-- The ordered `rentPatterns` family of the source, each as a full-text
leftmost scan producing the digits of the matched number. -/
def rentPatternScans : List (List Char → Option (List Char)) :=
  [scanFirst rentP1At, scanFirst rentP2At, scanFirst rentP3At,
   scanFirst (wordThenNumAt "rent".data), scanFirst (wordThenNumAt "monthly".data),
   scanFirst fourDigitRunAt]

/-- `parseInt` on the stripped match followed by the plausibility filter
`1000 ≤ num ≤ 1000000` of the source. -/
def parseRentAmount (digits : List Char) : Option ℕ :=
  let num := natFromDigits digits
  if 1000 ≤ num then (if num ≤ 1000000 then some num else none) else none

/-- The `for (const pattern of rentPatterns)` loop for one text: the first
pattern whose match parses into the accepted range wins; a pattern that
matches but fails the range check leaves the amount unset and the next
pattern is tried. -/
def extractRentAmount (text : List Char) : Option ℕ :=
  rentPatternScans.foldl
    (fun acc p =>
      match acc with
      | some _ => acc
      | none =>
        match p text with
        | some ds => parseRentAmount ds
        | none => none)
    none

/-- `/(\d+)\s*UNITs?\s*WORD/gi` at a position, with `UNIT` = `month`/`day`
and `WORD` = `notice`/`prior`; returns the captured digits. -/
def numUnitWordAt (unit word : List Char) (l : List Char) : Option (List Char) :=
  let d := countWhileL Char.isDigit l
  if d = 0 then none
  else
    let r := l.drop d
    let a := countWhileL jsWs r
    let r1 := r.drop a
    if unit.isPrefixOf r1 then
      let r2 := r1.drop unit.length
      let r3 := match r2 with
        | 's' :: rr => rr
        | _ => r2
      let b := countWhileL jsWs r3
      if word.isPrefixOf (r3.drop b) then some (l.take d) else none
    else none

/-- The lazy tail `.*?(\d+)\s*months?` of `/notice.*?…/`: the first digit run
(on the same line) that is followed by optional whitespace and `month`;
failing runs are skipped, as regex backtracking would. -/
def numThenMonth : List Char → Option (List Char)
  | [] => none
  | c :: r =>
    if c = '\n' then none
    else if c.isDigit then
      let d := countWhileL Char.isDigit (c :: r)
      let rest := (c :: r).drop d
      let a := countWhileL jsWs rest
      if "month".data.isPrefixOf (rest.drop a) then some ((c :: r).take d)
      else numThenMonth r
    else numThenMonth r

/-- `/notice.*?(\d+)\s*months?/gi` at a position. -/
def noticeThenNumAt (l : List Char) : Option (List Char) :=
  if "notice".data.isPrefixOf l then numThenMonth (l.drop 6) else none

/-- The ordered `noticePatterns` family of the source. -/
def noticePatternScans : List (List Char → Option (List Char)) :=
  [scanFirst (numUnitWordAt "month".data "notice".data),
   scanFirst noticeThenNumAt,
   scanFirst (numUnitWordAt "month".data "prior".data),
   scanFirst (numUnitWordAt "day".data "notice".data)]

/-- The notice-period loop: `parseInt(match[1])`, with the JavaScript
falsiness of `0` making a parsed `0` behave as not-found. -/
def extractNoticePeriod (text : List Char) : Option ℕ :=
  noticePatternScans.foldl
    (fun acc p =>
      match acc with
      | some _ => acc
      | none =>
        match p text with
        | some ds =>
          let v := natFromDigits ds
          if v = 0 then none else some v
        | none => none)
    none

/-- `Number.prototype.toLocaleString()` for a natural number in the en-US
default locale: thousands grouping with commas.  Auxiliary on the reversed
digit list, emitting a comma after every third digit. -/
def groupRevAux : ℕ → List Char → List Char
  | _, [] => []
  | k, c :: r => if k = 0 then ',' :: c :: groupRevAux 2 r else c :: groupRevAux (k - 1) r

def toLocaleString (n : ℕ) : String :=
  ⟨(groupRevAux 3 (toString n).data.reverse).reverse⟩

/-! ## Comparison Engine: per-pair analysis -/

/-- Embedding of `analyzeDifference(clause1, clause2, type)`: type-specific
numeric diffs first, then raw-text inequality, then risk-level difference,
then the generic sentence. -/
def analyzeDifference (clause1 clause2 : ClauseA) (ty : String) : String :=
  let text1 := lowerChars clause1.clause
  let text2 := lowerChars clause2.clause
  let rentStep : Option String :=
    if ty = "rent" then
      match extractRentAmount text1, extractRentAmount text2 with
      | some amount1, some amount2 =>
        if amount1 ≠ amount2 then
          some ("Rent differs: ₹" ++ toLocaleString amount1 ++ " vs ₹" ++ toLocaleString amount2)
        else none
      | _, _ => none
    else none
  let noticeStep : Option String :=
    if ty = "notice" then
      match extractNoticePeriod text1, extractNoticePeriod text2 with
      | some period1, some period2 =>
        if period1 ≠ period2 then
          some (s!"Notice period differs: {period1} vs {period2} months")
        else none
      | _, _ => none
    else none
  match rentStep with
  | some s => s
  | none =>
    match noticeStep with
    | some s => s
    | none =>
      if text1 ≠ text2 then "Clause content differs between documents"
      else if clause1.final_risk ≠ clause2.final_risk then
        "Risk levels differ: " ++ riskStr clause1.final_risk ++ " vs " ++ riskStr clause2.final_risk
      else "Similar clauses with minor variations"

/-- Embedding of `generatePlainEnglishDifference(clause1, clause2, type)`.
The `deposit` and `notice` cases of the source `switch` read the identifiers
`numbers1`/`numbers2`, which are declared nowhere in the function, so
evaluating either case throws a `ReferenceError`; the embedding returns it
as an `Except.error`. -/
def generatePlainEnglishDifference (clause1 clause2 : ClauseA) (ty : String) :
    Except String String :=
  let text1 := lowerChars clause1.clause
  let text2 := lowerChars clause2.clause
  let switchStep : Option (Except String String) :=
    if ty = "rent" then
      match extractRentAmount text1, extractRentAmount text2 with
      | some amount1, some amount2 =>
        some (.ok
          (if amount1 < amount2 then
            "Document 1 is cheaper (₹" ++ toLocaleString amount1
              ++ "/month) compared to Document 2 (₹" ++ toLocaleString amount2 ++ "/month)."
          else if amount2 < amount1 then
            "Document 2 is cheaper (₹" ++ toLocaleString amount2
              ++ "/month) compared to Document 1 (₹" ++ toLocaleString amount1 ++ "/month)."
          else
            "Both documents have the same rent amount (₹" ++ toLocaleString amount1 ++ "/month)."))
      | _, _ => none
    else if ty = "deposit" then
      some (.error "ReferenceError: numbers1 is not defined")
    else if ty = "notice" then
      some (.error "ReferenceError: numbers1 is not defined")
    else none
  match switchStep with
  | some r => r
  | none =>
    .ok
      (if clause1.final_risk ≠ clause2.final_risk then
        "Document 1 has " ++ riskLowerStr clause1.final_risk
          ++ " risk while Document 2 has " ++ riskLowerStr clause2.final_risk
          ++ " risk for this clause."
      else "Both documents have similar terms for this clause.")

/-! ## Comparison Engine: table construction (`compareClausesDetailed`) -/

/-- `/(\d+)\s*months?|₹\s*(\d+(?:,\d+)*)/i` at a position, returning the
matched span `match[0]` (used by `getKeyInfo` for deposit clauses). -/
def depositKIAt (l : List Char) : Option (List Char) :=
  let d := countWhileL Char.isDigit l
  (if d ≠ 0 then
    let r := l.drop d
    let a := countWhileL jsWs r
    let r1 := r.drop a
    if "month".data.isPrefixOf r1 then
      some (l.take (d + a + 5 + (match r1.drop 5 with
        | 's' :: _ => 1
        | _ => 0)))
    else none
  else none).orElse (fun _ =>
    match l with
    | '₹' :: r =>
      let a := countWhileL jsWs r
      match numTokenLenAt (r.drop a) with
      | some n => some (l.take (1 + a + n))
      | none => none
    | _ => none)

/-- `/₹\s*(\d+(?:,\d+)*)|rs\.?\s*(\d+(?:,\d+)*)|(\d{4,})/i` at a position,
returning the matched span `match[0]` (used by `getKeyInfo` for rent
clauses). -/
def rentKIAt (l : List Char) : Option (List Char) :=
  (match l with
   | '₹' :: r =>
     let a := countWhileL jsWs r
     match numTokenLenAt (r.drop a) with
     | some n => some (l.take (1 + a + n))
     | none => none
   | _ => none).orElse (fun _ =>
    (match l with
     | 'r' :: 's' :: r =>
       let dot := match r with
         | '.' :: _ => 1
         | _ => 0
       let r1 := r.drop dot
       let a := countWhileL jsWs r1
       match numTokenLenAt (r1.drop a) with
       | some n => some (l.take (2 + dot + a + n))
       | none => none
     | _ => none).orElse (fun _ =>
      let d := countWhileL Char.isDigit l
      if 4 ≤ d then some (l.take d) else none))

structure KeyInfo where
  text : String
  risk : Risk
  explanation : String
  fullText : String
deriving DecidableEq, Repr

/-- `clause.clause.substring(0, 200)` plus the `'...'` suffix for long
clauses. -/
def truncate200 (s : String) : String :=
  if 200 < s.data.length then (⟨s.data.take 200⟩ : String) ++ "..." else s

/-- Embedding of the `getKeyInfo` helper inside `generateClauseComparison`. -/
def getKeyInfo (clause : ClauseA) (clauseType : String) : KeyInfo :=
  let text := lowerChars clause.clause
  let displayText := truncate200 clause.clause
  let displayText :=
    if clauseType = "rent" then
      match scanFirst rentKIAt text with
      | some amount => "Rent: " ++ (⟨amount⟩ : String) ++ " - " ++ displayText
      | none => displayText
    else displayText
  let displayText :=
    if clauseType = "deposit" then
      match scanFirst depositKIAt text with
      | some amount => "Deposit: " ++ (⟨amount⟩ : String) ++ " - " ++ displayText
      | none => displayText
    else displayText
  ⟨displayText, clause.final_risk, clause.explanation, clause.clause⟩

/-- One row of the comparison table.  `doc1Idx`/`doc2Idx` record which source
clause (by position) each side was built from; in the JavaScript original
this identity is carried by object reference, and `indexOf` recovers exactly
the found index because array elements are distinct references. -/
structure CompEntry where
  clauseType : String
  doc1 : Option KeyInfo
  doc2 : Option KeyInfo
  doc1Idx : Option ℕ
  doc2Idx : Option ℕ
  difference : String
  overallRisk : Risk
  plainEnglish : String
deriving DecidableEq, Repr

/-- `type.charAt(0).toUpperCase() + type.slice(1)`. -/
def capitalizeStr (s : String) : String :=
  match s.data with
  | [] => ""
  | c :: r => ⟨c.toUpper :: r⟩

/-- Embedding of `generateClauseComparison(clause1, clause2, type)`.  With
both sides present the plain-English rendering can throw (see
`generatePlainEnglishDifference`), which aborts the construction. -/
def generateClauseComparison (clause1 clause2 : Option (ℕ × ClauseA)) (ty : String) :
    Except String CompEntry :=
  let base : CompEntry :=
    { clauseType := capitalizeStr ty
      doc1 := clause1.map (fun p => getKeyInfo p.2 ty)
      doc2 := clause2.map (fun p => getKeyInfo p.2 ty)
      doc1Idx := clause1.map (fun p => p.1)
      doc2Idx := clause2.map (fun p => p.1)
      difference := ""
      overallRisk := .low
      plainEnglish := "" }
  match clause1, clause2 with
  | some (_, c1), some (_, c2) =>
    match generatePlainEnglishDifference c1 c2 ty with
    | .ok pe =>
      .ok { base with
              difference := analyzeDifference c1 c2 ty
              overallRisk := getHigherRisk c1.final_risk c2.final_risk
              plainEnglish := pe }
    | .error e => .error e
  | some (_, c1), none =>
    .ok { base with
            difference := "Only present in Document 1"
            overallRisk := c1.final_risk
            plainEnglish := s!"Document 1 has this {ty} clause, but Document 2 doesn't." }
  | none, some (_, c2) =>
    .ok { base with
            difference := "Only present in Document 2"
            overallRisk := c2.final_risk
            plainEnglish := s!"Document 2 has this {ty} clause, but Document 1 doesn't." }
  | none, none => .ok base

/-- The fixed, ordered clause-type table of `compareClausesDetailed`. -/
def clauseTypes : List (String × List String) :=
  [("rent", ["rent", "payment", "monthly", "amount"]),
   ("deposit", ["deposit", "security", "advance"]),
   ("notice", ["notice", "termination", "exit"]),
   ("maintenance", ["maintenance", "repair", "upkeep"]),
   ("utilities", ["utilities", "electricity", "water"]),
   ("pets", ["pets", "animals"]),
   ("subletting", ["sublet", "subletting", "assign"]),
   ("duration", ["duration", "term", "period", "lease"]),
   ("renewal", ["renewal", "extend", "renew"])]

/-- `keywords.some(keyword => c.clause.toLowerCase().includes(keyword))`. -/
def clauseMatchesAny (c : ClauseA) (keywords : List String) : Bool :=
  keywords.any (fun k => containsSub (lowerChars c.clause) k.data)

/-- `clauses.find((c, i) => !matchedClauses.has(i) && keywords.some(...))`
over the index-carrying clause list. -/
def findUnmatched (clauses : List (ℕ × ClauseA)) (matched : List ℕ)
    (keywords : List String) : Option (ℕ × ClauseA) :=
  clauses.find? (fun p => !(matched.contains p.1) && clauseMatchesAny p.2 keywords)

/-- The type-matching loop of `compareClausesDetailed`: for every clause type
in order, consume the first not-yet-matched matching clause on each side and
emit one comparison entry when at least one side matched. -/
def comparePhase1 :
    List (String × List String) → List (ℕ × ClauseA) → List (ℕ × ClauseA) →
    List ℕ → List ℕ → List CompEntry →
    Except String (List ℕ × List ℕ × List CompEntry)
  | [], _, _, m1, m2, acc => .ok (m1, m2, acc)
  | (ty, keywords) :: rest, cs1, cs2, m1, m2, acc =>
    let o1 := findUnmatched cs1 m1 keywords
    let o2 := findUnmatched cs2 m2 keywords
    if o1.isSome || o2.isSome then
      match generateClauseComparison o1 o2 ty with
      | .error e => .error e
      | .ok entry =>
        comparePhase1 rest cs1 cs2 (m1 ++ (o1.map (fun p => p.1)).toList)
          (m2 ++ (o2.map (fun p => p.1)).toList) (acc ++ [entry])
    else comparePhase1 rest cs1 cs2 m1 m2 acc

/-- The residual loops of `compareClausesDetailed`: every clause not consumed
by type matching becomes its own single-sided entry of type `other`. -/
def residualPass (firstSide : Bool) :
    List (ℕ × ClauseA) → List ℕ → Except String (List CompEntry)
  | [], _ => .ok []
  | p :: rest, matched =>
    if p.1 ∈ matched then residualPass firstSide rest matched
    else
      match (if firstSide then generateClauseComparison (some p) none "other"
             else generateClauseComparison none (some p) "other") with
      | .error e => .error e
      | .ok entry =>
        match residualPass firstSide rest matched with
        | .error e => .error e
        | .ok es => .ok (entry :: es)

/-- Embedding of `compareClausesDetailed(clauses1, clauses2)`. -/
def compareClausesDetailed (clauses1 clauses2 : List ClauseA) :
    Except String (List CompEntry) :=
  let cs1 := enumFrom 0 clauses1
  let cs2 := enumFrom 0 clauses2
  match comparePhase1 clauseTypes cs1 cs2 [] [] [] with
  | .error e => .error e
  | .ok (m1, m2, table) =>
    match residualPass true cs1 m1 with
    | .error e => .error e
    | .ok r1 =>
      match residualPass false cs2 m2 with
      | .error e => .error e
      | .ok r2 => .ok (table ++ r1 ++ r2)

/-! ## External Analysis Scheduler (`processQueue`)

Discrete-time model of the rate-limited queue of `AIAnalyzer`:
`maxRequestsPerMinute = 12`, `requestWindow = 60000` ms.  Time is `ℕ`
milliseconds; `setTimeout(t)` advances the clock by exactly `t`, and the
external request itself is modelled as resolving instantaneously (the
scenario of the specification fixes no call duration).  All fifteen tasks
are queued before processing starts, and the single `isProcessingQueue`
flag of the source means one sequential loop serves the whole queue, so the
loop below is an exact trace of the source loop. -/

def maxRequestsPerMinute : ℕ := 12

def requestWindow : ℕ := 60000

structure SchedState where
  now : ℕ
  requestCount : ℕ
  lastResetTime : ℕ
  pending : ℕ
  dispatched : List ℕ
deriving DecidableEq, Repr

/-- `resetRequestCount()`: zero the counter when a full window has elapsed. -/
def resetRequestCount (s : SchedState) : SchedState :=
  if requestWindow ≤ s.now - s.lastResetTime then
    { s with requestCount := 0, lastResetTime := s.now }
  else s

/-- The `while (this.requestQueue.length > 0)` loop of `processQueue`,
with fuel bounding the number of iterations.  When the budget is exhausted
the loop sleeps `waitTime + 1000` ms and re-checks; after each dispatch it
sleeps 1000 ms. -/
def processQueue : ℕ → SchedState → SchedState
  | 0, s => s
  | fuel + 1, s =>
    if s.pending = 0 then s
    else
      let s1 := resetRequestCount s
      if s1.requestCount < maxRequestsPerMinute then
        let s2 := { s1 with
                      pending := s1.pending - 1
                      requestCount := s1.requestCount + 1
                      dispatched := s1.dispatched ++ [s1.now] }
        processQueue fuel { s2 with now := s2.now + 1000 }
      else
        let waitTime := requestWindow - (s1.now - s1.lastResetTime)
        processQueue fuel { s1 with now := s1.now + waitTime + 1000 }

/-- Fifteen tasks submitted at time 0 to a fresh scheduler. -/
def sched15Init : SchedState :=
  { now := 0, requestCount := 0, lastResetTime := 0, pending := 15, dispatched := [] }

/-- The dispatch times of the fifteen-task scenario. -/
def dispatchTimes : List ℕ := (processQueue 64 sched15Init).dispatched

/-- Number of dispatches inside the rolling window `[t, t + 60000)`. -/
def windowCount (t : ℕ) : ℕ :=
  dispatchTimes.countP (fun x => decide (t ≤ x) && decide (x < t + requestWindow))

/-! ## Concrete inputs used by the scenario theorems -/

/-- A deposit clause as analysed by the pipeline (document A). -/
def depositClause1 : ClauseA :=
  { page := 1, clause := "Security deposit of 2 months required.",
    explanation := "Deposit clause.", risk_ai := .medium, risk_rules := .medium,
    final_risk := .medium, reason := "", keywords := [], important_terms := [] }

/-- A deposit clause as analysed by the pipeline (document B). -/
def depositClause2 : ClauseA :=
  { page := 1, clause := "Security deposit of 3 months required.",
    explanation := "Deposit clause.", risk_ai := .medium, risk_rules := .medium,
    final_risk := .medium, reason := "", keywords := [], important_terms := [] }

/-- A clause matching none of the clause-type keyword groups. -/
def warrantyClause : ClauseA :=
  { page := 1, clause := "Warranty coverage applies.",
    explanation := "Warranty clause.", risk_ai := .low, risk_rules := .low,
    final_risk := .low, reason := "", keywords := [], important_terms := [] }

/-- A low-risk clause for the summarizer counterexample. -/
def sampleLowClause : ClauseA :=
  { page := 1, clause := "Payment due on delivery.",
    explanation := "", risk_ai := .low, risk_rules := .low,
    final_risk := .low, reason := "", keywords := [], important_terms := [] }

/-- The segmentation scenario input of the specification (with a literal
newline between the two sentences). -/
def c3Text : String := "1. Rent is Rs. 15,000 per month.\n2. Notice period is 1 month."

/-- The whitespace-normalised form of `c3Text`: the newline has become a
space. -/
def c3Merged : String := "1. Rent is Rs. 15,000 per month. 2. Notice period is 1 month."

/-! ## Statement-side predicates for the comparison partition law -/

/-- Number of comparison entries whose side-index (selected by `f`, either
`CompEntry.doc1Idx` or `CompEntry.doc2Idx`) is `some i` — how many entries a
given source clause appears in on that side. -/
def cntIdx (f : CompEntry → Option ℕ) (entries : List CompEntry) (i : ℕ) : ℕ :=
  entries.countP (fun e => decide (f e = some i))

/-- Soundness of one comparison entry with respect to the two source clause
lists: each populated side carries exactly the clause at the recorded index
(its `fullText` is that clause's text), and a single-sided entry carries the
`"Only present in Document N"` difference text. -/
def entrySound (clauses1 clauses2 : List ClauseA) (e : CompEntry) : Prop :=
  (∀ i, e.doc1Idx = some i →
      ∃ c, clauses1[i]? = some c ∧ e.doc1.map KeyInfo.fullText = some c.clause)
    ∧ (∀ i, e.doc2Idx = some i →
        ∃ c, clauses2[i]? = some c ∧ e.doc2.map KeyInfo.fullText = some c.clause)
    ∧ ((∃ i, e.doc1Idx = some i) → e.doc2Idx = none →
        e.difference = "Only present in Document 1")
    ∧ (e.doc1Idx = none → (∃ i, e.doc2Idx = some i) →
        e.difference = "Only present in Document 2")

/-! ## Statement-side predicates for the segmenter laws -/

/-- The word-window chunks of a word list, specification-side: groups of
`cs` consecutive words, each joined with single spaces (for `cs = 0` the
first word alone forms each chunk, but that case never arises in the
lemmas, which assume `1 ≤ cs`). -/
def chunkTexts (cs : ℕ) (l : List (List Char)) : List (List Char) :=
  match l with
  | [] => []
  | w :: ws => joinSp (w :: ws.take (cs - 1)) :: chunkTexts cs (ws.drop (cs - 1))
termination_by l.length
decreasing_by
  simp only [List.length_cons, List.length_drop]
  omega

/-- Every whitespace character is a plain space and no two whitespace
characters are adjacent (the run-collapsed shape). -/
def pairB : List Char → Bool
  | [] => true
  | [_] => true
  | c :: d :: r => (!jsWs c || (decide (c = ' ') && !jsWs d)) && pairB (d :: r)

/-- The first character, if any, is not whitespace. -/
def headNonWs : List Char → Bool
  | [] => true
  | c :: _ => !jsWs c

/-- The last character, if any, is not whitespace. -/
def lastNonWs : List Char → Bool
  | [] => true
  | [c] => !jsWs c
  | _ :: d :: r => lastNonWs (d :: r)

-- ===== THEOREMS =====

set_option maxRecDepth 16000

/-! ## General helper lemmas -/

theorem fuseRisk_eq_riskMax (a b : Risk) : fuseRisk a b = riskMax a b := by
  cases a <;> cases b <;> rfl

theorem scanKeywords_eq (text : List Char) (w : ℕ) :
    ∀ (kws : List String) (acc : ℕ × List String),
      scanKeywords text kws w acc =
        (acc.1 + w * (matchedIn text kws).length, acc.2 ++ matchedIn text kws) := by
  intro kws
  induction kws with
  | nil => intro acc; simp [scanKeywords, matchedIn]
  | cons k rest ih =>
    intro acc
    simp only [scanKeywords, List.foldl_cons] at ih ⊢
    by_cases h : containsSub text (lowerChars k) = true
    · rw [if_pos h, ih]
      have hm : matchedIn text (k :: rest) = k :: matchedIn text rest := by
        simp [matchedIn, List.filter_cons, h]
      rw [hm]
      simp only [Prod.mk.injEq]
      constructor
      · simp only [List.length_cons]
        ring
      · simp
    · rw [if_neg h, ih]
      have hm : matchedIn text (k :: rest) = matchedIn text rest := by
        simp [matchedIn, List.filter_cons, h]
      rw [hm]

theorem two_le_length_of_mem {l : List String} {a b : String}
    (ha : a ∈ l) (hb : b ∈ l) (hab : a ≠ b) : 2 ≤ l.length := by
  obtain ⟨s, t, rfl⟩ := List.append_of_mem ha
  rcases List.mem_append.mp hb with hb | hb
  · have hs : 0 < s.length := List.length_pos_of_mem hb
    simp only [List.length_append, List.length_cons]
    omega
  · rcases List.mem_cons.mp hb with rfl | hb
    · exact absurd rfl hab
    · have ht : 0 < t.length := List.length_pos_of_mem hb
      simp only [List.length_append, List.length_cons]
      omega

/-! ## C2 -/

/-- C2: for every ClauseAnalysis produced by the Clause Analyzer, `final_risk`
is the maximum of the rules verdict and the external verdict under
Low < Medium < High, whether the external verdict came from the external
call (`ext = .ok v`) or from the deterministic fallback (`ext = .error e`). -/
theorem clauseAnalyzer_finalRisk_is_max (clauseText : String) (page : ℕ)
    (ext : Except String ExternalVerdict) :
    (analyzeClause clauseText page ext).final_risk =
      riskMax (analyzeClause clauseText page ext).risk_rules
        (analyzeClause clauseText page ext).risk_ai := by
  cases ext <;> simp [analyzeClause, fuseRisk_eq_riskMax]

/-! ## C6 -/

/-- C6: the Risk Rules Engine scores by case-insensitive substring matching
against the three fixed keyword lists with weights 3/2/1 summed into a
cumulative score, rates High at score ≥ 6 and Medium at score ≥ 3, returns
the first-occurrence-deduplicated matched keywords, and in particular any
clause containing both "penalty" and "personal guarantee" scores at least 6
and is rated High. -/
theorem rulesEngine_scoring (clauseText : String) :
    (analyzeRiskByRules clauseText).riskScore =
        3 * (matchedIn (lowerChars clauseText) highRiskKeywords).length
          + 2 * (matchedIn (lowerChars clauseText) mediumRiskKeywords).length
          + 1 * (matchedIn (lowerChars clauseText) lowRiskKeywords).length
      ∧ (analyzeRiskByRules clauseText).riskLevel =
          (if 6 ≤ (analyzeRiskByRules clauseText).riskScore then .high
           else if 3 ≤ (analyzeRiskByRules clauseText).riskScore then .medium else .low)
      ∧ (analyzeRiskByRules clauseText).detectedKeywords =
          jsDedup (matchedIn (lowerChars clauseText) highRiskKeywords
            ++ matchedIn (lowerChars clauseText) mediumRiskKeywords
            ++ matchedIn (lowerChars clauseText) lowRiskKeywords)
      ∧ (containsSub (lowerChars clauseText) "penalty".data = true →
          containsSub (lowerChars clauseText) "personal guarantee".data = true →
          6 ≤ (analyzeRiskByRules clauseText).riskScore
            ∧ (analyzeRiskByRules clauseText).riskLevel = .high) := by
  have hs : (analyzeRiskByRules clauseText).riskScore =
      3 * (matchedIn (lowerChars clauseText) highRiskKeywords).length
        + 2 * (matchedIn (lowerChars clauseText) mediumRiskKeywords).length
        + 1 * (matchedIn (lowerChars clauseText) lowRiskKeywords).length := by
    simp [analyzeRiskByRules, scanKeywords_eq]
  refine ⟨hs, rfl, ?_, ?_⟩
  · simp [analyzeRiskByRules, scanKeywords_eq]
  · intro hp hpg
    have hpl : lowerChars "penalty" = "penalty".data := by decide
    have hpgl : lowerChars "personal guarantee" = "personal guarantee".data := by decide
    have h1 : "penalty" ∈ matchedIn (lowerChars clauseText) highRiskKeywords := by
      refine List.mem_filter.mpr ⟨by decide, ?_⟩
      rw [hpl]; exact hp
    have h2 : "personal guarantee" ∈ matchedIn (lowerChars clauseText) highRiskKeywords := by
      refine List.mem_filter.mpr ⟨by decide, ?_⟩
      rw [hpgl]; exact hpg
    have hlen : 2 ≤ (matchedIn (lowerChars clauseText) highRiskKeywords).length :=
      two_le_length_of_mem h1 h2 (by decide)
    have h6 : 6 ≤ (analyzeRiskByRules clauseText).riskScore := by
      rw [hs]; omega
    refine ⟨h6, ?_⟩
    have hlev := (rfl :
      (analyzeRiskByRules clauseText).riskLevel = (analyzeRiskByRules clauseText).riskLevel)
    simp only [analyzeRiskByRules] at hlev ⊢
    rw [if_pos]
    have := h6
    simp only [analyzeRiskByRules] at this
    exact this

/-- Witness for C6 at a concrete clause text. -/
theorem rulesEngine_scoring_witness :
    6 ≤ (analyzeRiskByRules "A penalty and a personal guarantee apply.").riskScore
      ∧ (analyzeRiskByRules "A penalty and a personal guarantee apply.").riskLevel = .high :=
  (rulesEngine_scoring "A penalty and a personal guarantee apply.").2.2.2
    (by decide) (by decide)

/-! ## C7 -/

theorem riskDist_sum_foldl :
    ∀ (cs : List ClauseA) (rd : RiskDist),
      (cs.foldl riskDistStep rd).low + (cs.foldl riskDistStep rd).medium
          + (cs.foldl riskDistStep rd).high
        = rd.low + rd.medium + rd.high + cs.length := by
  intro cs
  induction cs with
  | nil => intro rd; simp
  | cons c rest ih =>
    intro rd
    simp only [List.foldl_cons, List.length_cons]
    rw [ih]
    cases h : c.final_risk <;> simp [riskDistStep, h] <;> omega

/-- C7: for every list of analysed clauses, the risk-distribution buckets sum
to the number of clauses — every clause's `final_risk` is counted in exactly
one of the three buckets. -/
theorem riskDistribution_sum (clauses : List ClauseA) :
    (riskDistribution clauses).low + (riskDistribution clauses).medium
        + (riskDistribution clauses).high = clauses.length := by
  simpa [riskDistribution] using riskDist_sum_foldl clauses ⟨0, 0, 0⟩

/-! ## C9 -/

/-- C9 counterexample: with the external capability always failing
(`QUOTA_EXCEEDED`), the summary actually returned carries the generic
`"Unable to generate summary"` finding, not the rules-based template findings
enumerating the clause count and per-level counts that the claim describes
(that template, `routeQuotaFallback`, is unreachable because
`generateDocumentSummary` swallows the failure itself). -/
theorem summarizer_fallback_counterexample :
    routeSummarizeE (fun _ => none) [sampleLowClause] (.error "QUOTA_EXCEEDED") =
        .ok ⟨1, ⟨1, 0, 0⟩, .low, ["Unable to generate summary"], ["Manual review recommended"]⟩
      ∧ (routeQuotaFallback 1 .low ⟨1, 0, 0⟩).key_findings =
          ["Document contains 1 clauses", "Overall risk level: Low",
           "High risk clauses: 0", "Medium risk clauses: 0", "Low risk clauses: 1"]
      ∧ (["Unable to generate summary"] : List String) ≠
          ["Document contains 1 clauses", "Overall risk level: Low",
           "High risk clauses: 0", "Medium risk clauses: 0", "Low risk clauses: 1"] := by
  refine ⟨rfl, by decide, by decide⟩

/-- C9 (amended): if every external summary request fails, the Document
Summarizer still returns a summary — no exception escapes — with non-empty
`keyFindings`, but they are the generic internal fallback
`["Unable to generate summary"]` / `["Manual review recommended"]` of
`generateDocumentSummary`, not the enumerating rules-based template of the
route (which is dead code). -/
theorem summarizer_fallback_generic (jsonParse : String → Option SummaryData)
    (clauses : List ClauseA) (err : String) :
    routeSummarizeE jsonParse clauses (.error err) =
        .ok { totalClauses := clauses.length
              riskDistribution := riskDistribution clauses
              overallRisk := overallRiskOf (riskDistribution clauses)
              keyFindings := ["Unable to generate summary"]
              recommendations := ["Manual review recommended"] }
      ∧ (["Unable to generate summary"] : List String) ≠ [] := by
  exact ⟨rfl, by decide⟩

/-! ## C1 -/

/-- C1 fails on the code: comparing two documents that each contain a
deposit clause makes the Comparison Engine throw.  The deposit case of
`generatePlainEnglishDifference` reads the undeclared identifiers
`numbers1`/`numbers2`, so the matched pair raises a `ReferenceError` and
`compareClausesDetailed` aborts instead of yielding a ComparisonEntry. -/
theorem comparisonEngine_throws_on_deposit_pair :
    compareClausesDetailed [depositClause1] [depositClause2] =
      .error "ReferenceError: numbers1 is not defined" := by
  rfl

/-! ## C5 -/

/-- C5: in the fifteen-task scenario with a budget of 12 per 60-second
window, all fifteen tasks are eventually dispatched, the 13th external call
fires at 61000 ms — not before one full window has elapsed since the
scheduler's initial window start (the reset happens at that same instant) —
and no rolling 60-second interval contains more than 12 dispatches. -/
theorem scheduler_rate_limit_scenario :
    dispatchTimes.length = 15
      ∧ dispatchTimes[12]? = some 61000
      ∧ sched15Init.lastResetTime + requestWindow ≤ 61000
      ∧ ∀ t : ℕ, windowCount t ≤ 12 := by
  refine ⟨by decide, by decide, by decide, ?_⟩
  intro t
  have hd : dispatchTimes = [0, 1000, 2000, 3000, 4000, 5000, 6000, 7000, 8000,
      9000, 10000, 11000, 61000, 62000, 63000] := by decide
  unfold windowCount
  rw [hd]
  rcases Nat.lt_or_ge 1000 t with h1 | h1
  · rcases Nat.lt_or_ge 2000 t with h2 | h2
    · -- 2001 ≤ t: the first three dispatches are before the window
      rw [show ([0, 1000, 2000, 3000, 4000, 5000, 6000, 7000, 8000,
            9000, 10000, 11000, 61000, 62000, 63000] : List ℕ)
          = [0, 1000, 2000] ++ [3000, 4000, 5000, 6000, 7000, 8000,
            9000, 10000, 11000, 61000, 62000, 63000] from rfl]
      rw [List.countP_append]
      have hA : List.countP
          (fun x => decide (t ≤ x) && decide (x < t + requestWindow))
          ([0, 1000, 2000] : List ℕ) = 0 := by
        refine List.countP_eq_zero.mpr ?_
        intro a ha
        simp only [List.mem_cons, List.not_mem_nil, or_false] at ha
        simp only [Bool.and_eq_true, decide_eq_true_eq, not_and]
        rcases ha with rfl | rfl | rfl <;> omega
      have hB := List.countP_le_length
        (fun x => decide (t ≤ x) && decide (x < t + requestWindow))
        (l := ([3000, 4000, 5000, 6000, 7000, 8000,
                9000, 10000, 11000, 61000, 62000, 63000] : List ℕ))
      simp only [List.length_cons, List.length_nil] at hB
      omega
    · -- 1001 ≤ t ≤ 2000: the first two and the last two are outside
      rw [show ([0, 1000, 2000, 3000, 4000, 5000, 6000, 7000, 8000,
            9000, 10000, 11000, 61000, 62000, 63000] : List ℕ)
          = [0, 1000] ++ ([2000, 3000, 4000, 5000, 6000, 7000, 8000,
            9000, 10000, 11000, 61000] ++ [62000, 63000]) from rfl]
      rw [List.countP_append, List.countP_append]
      have hA : List.countP
          (fun x => decide (t ≤ x) && decide (x < t + requestWindow))
          ([0, 1000] : List ℕ) = 0 := by
        refine List.countP_eq_zero.mpr ?_
        intro a ha
        simp only [List.mem_cons, List.not_mem_nil, or_false] at ha
        simp only [Bool.and_eq_true, decide_eq_true_eq, not_and]
        rcases ha with rfl | rfl <;> omega
      have hC : List.countP
          (fun x => decide (t ≤ x) && decide (x < t + requestWindow))
          ([62000, 63000] : List ℕ) = 0 := by
        refine List.countP_eq_zero.mpr ?_
        intro a ha
        simp only [List.mem_cons, List.not_mem_nil, or_false] at ha
        simp only [Bool.and_eq_true, decide_eq_true_eq, not_and]
        unfold requestWindow
        rcases ha with rfl | rfl <;> omega
      have hB := List.countP_le_length
        (fun x => decide (t ≤ x) && decide (x < t + requestWindow))
        (l := ([2000, 3000, 4000, 5000, 6000, 7000, 8000,
                9000, 10000, 11000, 61000] : List ℕ))
      simp only [List.length_cons, List.length_nil] at hB
      omega
  · -- t ≤ 1000: the last three dispatches are past the window end
    rw [show ([0, 1000, 2000, 3000, 4000, 5000, 6000, 7000, 8000,
          9000, 10000, 11000, 61000, 62000, 63000] : List ℕ)
        = [0, 1000, 2000, 3000, 4000, 5000, 6000, 7000, 8000,
          9000, 10000, 11000] ++ [61000, 62000, 63000] from rfl]
    rw [List.countP_append]
    have hB : List.countP
        (fun x => decide (t ≤ x) && decide (x < t + requestWindow))
        ([61000, 62000, 63000] : List ℕ) = 0 := by
      refine List.countP_eq_zero.mpr ?_
      intro a ha
      simp only [List.mem_cons, List.not_mem_nil, or_false] at ha
      simp only [Bool.and_eq_true, decide_eq_true_eq, not_and]
      unfold requestWindow
      rcases ha with rfl | rfl | rfl <;> omega
    have hA := List.countP_le_length
      (fun x => decide (t ≤ x) && decide (x < t + requestWindow))
      (l := ([0, 1000, 2000, 3000, 4000, 5000, 6000, 7000, 8000,
              9000, 10000, 11000] : List ℕ))
    simp only [List.length_cons, List.length_nil] at hA
    omega

/-! ## C8: helper lemmas -/

theorem getKeyInfo_fullText (c : ClauseA) (ty : String) :
    (getKeyInfo c ty).fullText = c.clause := rfl

/-- Field-level specification of `generateClauseComparison` on success. -/
theorem gcc_spec {c1 c2 : Option (ℕ × ClauseA)} {ty : String} {e : CompEntry}
    (h : generateClauseComparison c1 c2 ty = .ok e) :
    e.doc1Idx = c1.map (fun p => p.1)
      ∧ e.doc2Idx = c2.map (fun p => p.1)
      ∧ e.doc1 = c1.map (fun p => getKeyInfo p.2 ty)
      ∧ e.doc2 = c2.map (fun p => getKeyInfo p.2 ty)
      ∧ (c1.isSome → c2 = none → e.difference = "Only present in Document 1")
      ∧ (c1 = none → c2.isSome → e.difference = "Only present in Document 2") := by
  rcases c1 with _ | ⟨i, a⟩ <;> rcases c2 with _ | ⟨j, b⟩
  · simp only [generateClauseComparison] at h
    injection h with h
    subst h
    simp
  · simp only [generateClauseComparison] at h
    injection h with h
    subst h
    simp
  · simp only [generateClauseComparison] at h
    injection h with h
    subst h
    simp
  · simp only [generateClauseComparison] at h
    rcases hpe : generatePlainEnglishDifference a b ty with err | pe <;> rw [hpe] at h
    · cases h
    · injection h with h
      subst h
      simp

theorem findUnmatched_facts {cs : List (ℕ × ClauseA)} {m : List ℕ} {kws : List String}
    {p : ℕ × ClauseA} (h : findUnmatched cs m kws = some p) :
    p ∈ cs ∧ p.1 ∉ m := by
  refine ⟨List.mem_of_find?_eq_some h, ?_⟩
  have h2 := List.find?_some h
  simp only [Bool.and_eq_true, Bool.not_eq_true'] at h2
  have hc := h2.1
  intro hm
  simp [hm] at hc

/-- Appending one entry to the table updates the per-index entry count in
lockstep with appending its (fresh) index to the matched set. -/
theorem step_cnt (f : CompEntry → Option ℕ) (acc : List CompEntry) (m : List ℕ)
    (entry : CompEntry) (o : Option ℕ)
    (h1 : ∀ i, cntIdx f acc i = if i ∈ m then 1 else 0)
    (hidx : f entry = o)
    (hnew : ∀ j, o = some j → j ∉ m) :
    ∀ i, cntIdx f (acc ++ [entry]) i = if i ∈ m ++ o.toList then 1 else 0 := by
  intro i
  unfold cntIdx at h1 ⊢
  rw [List.countP_append, h1]
  rcases o with _ | j
  · simp [List.countP_cons, hidx]
  · by_cases hij : i = j
    · subst hij
      have hnotm := hnew i rfl
      simp [List.countP_cons, hidx, hnotm]
    · simp only [List.countP_cons, List.countP_nil, hidx, List.mem_append,
        List.mem_cons, List.not_mem_nil, or_false]
      have : (decide (some j = some i)) = false := by
        simp
        exact fun hji => (hij hji.symm).elim
      rw [this]
      simp [hij]

theorem enumFrom_getElem {l : List ClauseA} :
    ∀ {n : ℕ} {p : ℕ × ClauseA}, p ∈ enumFrom n l →
      n ≤ p.1 ∧ p.1 - n < l.length ∧ l[p.1 - n]? = some p.2 := by
  induction l with
  | nil =>
    intro n p h
    simp [enumFrom] at h
  | cons c rest ih =>
    intro n p h
    simp only [enumFrom, List.mem_cons] at h
    rcases h with rfl | h
    · simp
    · obtain ⟨h1, h2, h3⟩ := ih h
      refine ⟨by omega, by simp only [List.length_cons]; omega, ?_⟩
      have he : p.1 - n = (p.1 - (n + 1)) + 1 := by omega
      rw [he, List.getElem?_cons_succ]
      exact h3

/-- Invariant of the type-matching phase: the accumulated table contains
exactly one entry per matched index on each side, and every accumulated
entry is sound with respect to the source clause lists. -/
theorem comparePhase1_spec (clauses1 clauses2 : List ClauseA) :
    ∀ (types : List (String × List String)) (cs1 cs2 : List (ℕ × ClauseA))
      (m1 m2 : List ℕ) (acc : List CompEntry)
      (out : List ℕ × List ℕ × List CompEntry),
      comparePhase1 types cs1 cs2 m1 m2 acc = .ok out →
      (∀ p ∈ cs1, clauses1[p.1]? = some p.2) →
      (∀ p ∈ cs2, clauses2[p.1]? = some p.2) →
      (∀ i, cntIdx CompEntry.doc1Idx acc i = if i ∈ m1 then 1 else 0) →
      (∀ i, cntIdx CompEntry.doc2Idx acc i = if i ∈ m2 then 1 else 0) →
      (∀ e ∈ acc, entrySound clauses1 clauses2 e) →
      (∀ i, cntIdx CompEntry.doc1Idx out.2.2 i = if i ∈ out.1 then 1 else 0)
        ∧ (∀ i, cntIdx CompEntry.doc2Idx out.2.2 i = if i ∈ out.2.1 then 1 else 0)
        ∧ (∀ e ∈ out.2.2, entrySound clauses1 clauses2 e) := by
  intro types
  induction types with
  | nil =>
    intro cs1 cs2 m1 m2 acc out h _ _ h1 h2 h3
    simp only [comparePhase1] at h
    injection h with h
    subst h
    exact ⟨h1, h2, h3⟩
  | cons t rest ih =>
    obtain ⟨ty, kws⟩ := t
    intro cs1 cs2 m1 m2 acc out h hcs1 hcs2 h1 h2 h3
    simp only [comparePhase1] at h
    rcases ho1 : findUnmatched cs1 m1 kws with _ | p1 <;>
      rcases ho2 : findUnmatched cs2 m2 kws with _ | p2 <;>
      rw [ho1, ho2] at h <;>
      simp only [Option.isSome_none, Option.isSome_some, Bool.or_self, Bool.false_or,
        Bool.or_true, Bool.true_or, Bool.false_eq_true, if_false, if_true,
        Option.map_some', Option.map_none', Option.toList_some, Option.toList_none,
        List.append_nil] at h
    · -- no side matched: state unchanged
      exact ih cs1 cs2 m1 m2 acc out h hcs1 hcs2 h1 h2 h3
    · -- only document 2 matched
      rcases hg : generateClauseComparison none (some p2) ty with err | entry <;> rw [hg] at h
      · cases h
      obtain ⟨hf2, hn2⟩ := findUnmatched_facts ho2
      obtain ⟨hi1, hi2, hd1, hd2, _, hs2⟩ := gcc_spec hg
      refine ih cs1 cs2 m1 (m2 ++ [p2.1]) (acc ++ [entry]) out h hcs1 hcs2 ?_ ?_ ?_
      · intro i
        have := step_cnt CompEntry.doc1Idx acc m1 entry none h1 (by simpa using hi1)
          (by intro j hj; cases hj) i
        simpa using this
      · intro i
        have := step_cnt CompEntry.doc2Idx acc m2 entry (some p2.1) h2 (by simpa using hi2)
          (by intro j hj; injection hj with hj; subst hj; exact hn2) i
        simpa using this
      · intro e he
        rcases List.mem_append.mp he with he | he
        · exact h3 e he
        · have he' : e = entry := by simpa using he
          subst he'
          refine ⟨?_, ?_, ?_, ?_⟩
          · intro i hi
            rw [hi1] at hi
            cases hi
          · intro i hi
            rw [hi2] at hi
            injection hi with hi
            subst hi
            exact ⟨p2.2, hcs2 p2 hf2, by simp [hd2, getKeyInfo_fullText]⟩
          · intro ⟨i, hi⟩
            rw [hi1] at hi
            cases hi
          · intro _ _
            exact hs2 rfl (by simp)
    · -- only document 1 matched
      rcases hg : generateClauseComparison (some p1) none ty with err | entry <;> rw [hg] at h
      · cases h
      obtain ⟨hf1, hn1⟩ := findUnmatched_facts ho1
      obtain ⟨hi1, hi2, hd1, hd2, hs1, _⟩ := gcc_spec hg
      refine ih cs1 cs2 (m1 ++ [p1.1]) m2 (acc ++ [entry]) out h hcs1 hcs2 ?_ ?_ ?_
      · intro i
        have := step_cnt CompEntry.doc1Idx acc m1 entry (some p1.1) h1 (by simpa using hi1)
          (by intro j hj; injection hj with hj; subst hj; exact hn1) i
        simpa using this
      · intro i
        have := step_cnt CompEntry.doc2Idx acc m2 entry none h2 (by simpa using hi2)
          (by intro j hj; cases hj) i
        simpa using this
      · intro e he
        rcases List.mem_append.mp he with he | he
        · exact h3 e he
        · have he' : e = entry := by simpa using he
          subst he'
          refine ⟨?_, ?_, ?_, ?_⟩
          · intro i hi
            rw [hi1] at hi
            injection hi with hi
            subst hi
            exact ⟨p1.2, hcs1 p1 hf1, by simp [hd1, getKeyInfo_fullText]⟩
          · intro i hi
            rw [hi2] at hi
            cases hi
          · intro _ _
            exact hs1 (by simp) rfl
          · intro hnone
            rw [hi1] at hnone
            cases hnone
    · -- both sides matched
      rcases hg : generateClauseComparison (some p1) (some p2) ty with err | entry <;> rw [hg] at h
      · cases h
      obtain ⟨hf1, hn1⟩ := findUnmatched_facts ho1
      obtain ⟨hf2, hn2⟩ := findUnmatched_facts ho2
      obtain ⟨hi1, hi2, hd1, hd2, _, _⟩ := gcc_spec hg
      refine ih cs1 cs2 (m1 ++ [p1.1]) (m2 ++ [p2.1]) (acc ++ [entry]) out h hcs1 hcs2 ?_ ?_ ?_
      · intro i
        have := step_cnt CompEntry.doc1Idx acc m1 entry (some p1.1) h1 (by simpa using hi1)
          (by intro j hj; injection hj with hj; subst hj; exact hn1) i
        simpa using this
      · intro i
        have := step_cnt CompEntry.doc2Idx acc m2 entry (some p2.1) h2 (by simpa using hi2)
          (by intro j hj; injection hj with hj; subst hj; exact hn2) i
        simpa using this
      · intro e he
        rcases List.mem_append.mp he with he | he
        · exact h3 e he
        · have he' : e = entry := by simpa using he
          subst he'
          refine ⟨?_, ?_, ?_, ?_⟩
          · intro i hi
            rw [hi1] at hi
            injection hi with hi
            subst hi
            exact ⟨p1.2, hcs1 p1 hf1, by simp [hd1, getKeyInfo_fullText]⟩
          · intro i hi
            rw [hi2] at hi
            injection hi with hi
            subst hi
            exact ⟨p2.2, hcs2 p2 hf2, by simp [hd2, getKeyInfo_fullText]⟩
          · intro _ hnone
            rw [hi2] at hnone
            cases hnone
          · intro hnone
            rw [hi1] at hnone
            cases hnone

/-- Specification of the document-1 residual loop: one entry per unmatched
index, nothing on the document-2 side, and every produced entry is sound. -/
theorem residualPass1_spec (clauses1 clauses2 : List ClauseA) :
    ∀ (cs : List (ℕ × ClauseA)) (m : List ℕ) (r : List CompEntry),
      residualPass true cs m = .ok r →
      (∀ p ∈ cs, clauses1[p.1]? = some p.2) →
      (∀ i, cntIdx CompEntry.doc1Idx r i
          = cs.countP (fun p => decide (p.1 = i) && decide (p.1 ∉ m)))
        ∧ (∀ i, cntIdx CompEntry.doc2Idx r i = 0)
        ∧ (∀ e ∈ r, entrySound clauses1 clauses2 e) := by
  intro cs
  induction cs with
  | nil =>
    intro m r h hcs
    simp only [residualPass] at h
    injection h with h
    subst h
    simp [cntIdx]
  | cons p rest ih =>
    intro m r h hcs
    simp only [residualPass] at h
    by_cases hm : p.1 ∈ m
    · rw [if_pos hm] at h
      obtain ⟨ha, hb, hc⟩ := ih m r h (fun q hq => hcs q (List.mem_cons_of_mem _ hq))
      refine ⟨?_, hb, hc⟩
      intro i
      rw [ha i, List.countP_cons]
      simp [hm]
    · rw [if_neg hm] at h
      simp only [if_true] at h
      rcases hg : generateClauseComparison (some p) none "other" with err | entry <;>
        rw [hg] at h
      · cases h
      rcases hr : residualPass true rest m with err2 | es <;> rw [hr] at h
      · cases h
      injection h with h
      subst h
      obtain ⟨ha, hb, hc⟩ := ih m es hr (fun q hq => hcs q (List.mem_cons_of_mem _ hq))
      obtain ⟨hi1, hi2, hd1, hd2, hs1, _⟩ := gcc_spec hg
      refine ⟨?_, ?_, ?_⟩
      · intro i
        unfold cntIdx at ha ⊢
        rw [List.countP_cons, List.countP_cons, ha i]
        by_cases hpi : p.1 = i
        · subst hpi
          simp [hi1, hm]
        · have hx : (decide (entry.doc1Idx = some i)) = false := by
            rw [hi1]
            simp only [Option.map_some', decide_eq_false_iff_not]
            intro hji
            injection hji with hji
            exact hpi hji
          rw [hx]
          simp [hpi]
      · intro i
        unfold cntIdx at hb ⊢
        rw [List.countP_cons, hb i]
        simp [hi2]
      · intro e he
        rcases List.mem_cons.mp he with rfl | he
        · refine ⟨?_, ?_, ?_, ?_⟩
          · intro i hi
            rw [hi1] at hi
            injection hi with hi
            subst hi
            exact ⟨p.2, hcs p (List.mem_cons_self _ _), by simp [hd1, getKeyInfo_fullText]⟩
          · intro i hi
            rw [hi2] at hi
            cases hi
          · intro _ _
            exact hs1 (by simp) rfl
          · intro hnone
            rw [hi1] at hnone
            cases hnone
        · exact hc e he

/-- Specification of the document-2 residual loop. -/
theorem residualPass2_spec (clauses1 clauses2 : List ClauseA) :
    ∀ (cs : List (ℕ × ClauseA)) (m : List ℕ) (r : List CompEntry),
      residualPass false cs m = .ok r →
      (∀ p ∈ cs, clauses2[p.1]? = some p.2) →
      (∀ i, cntIdx CompEntry.doc2Idx r i
          = cs.countP (fun p => decide (p.1 = i) && decide (p.1 ∉ m)))
        ∧ (∀ i, cntIdx CompEntry.doc1Idx r i = 0)
        ∧ (∀ e ∈ r, entrySound clauses1 clauses2 e) := by
  intro cs
  induction cs with
  | nil =>
    intro m r h hcs
    simp only [residualPass] at h
    injection h with h
    subst h
    simp [cntIdx]
  | cons p rest ih =>
    intro m r h hcs
    simp only [residualPass] at h
    by_cases hm : p.1 ∈ m
    · rw [if_pos hm] at h
      obtain ⟨ha, hb, hc⟩ := ih m r h (fun q hq => hcs q (List.mem_cons_of_mem _ hq))
      refine ⟨?_, hb, hc⟩
      intro i
      rw [ha i, List.countP_cons]
      simp [hm]
    · rw [if_neg hm] at h
      simp only [Bool.false_eq_true, if_false] at h
      rcases hg : generateClauseComparison none (some p) "other" with err | entry <;>
        rw [hg] at h
      · cases h
      rcases hr : residualPass false rest m with err2 | es <;> rw [hr] at h
      · cases h
      injection h with h
      subst h
      obtain ⟨ha, hb, hc⟩ := ih m es hr (fun q hq => hcs q (List.mem_cons_of_mem _ hq))
      obtain ⟨hi1, hi2, hd1, hd2, _, hs2⟩ := gcc_spec hg
      refine ⟨?_, ?_, ?_⟩
      · intro i
        unfold cntIdx at ha ⊢
        rw [List.countP_cons, List.countP_cons, ha i]
        by_cases hpi : p.1 = i
        · subst hpi
          simp [hi2, hm]
        · have hx : (decide (entry.doc2Idx = some i)) = false := by
            rw [hi2]
            simp only [Option.map_some', decide_eq_false_iff_not]
            intro hji
            injection hji with hji
            exact hpi hji
          rw [hx]
          simp [hpi]
      · intro i
        unfold cntIdx at hb ⊢
        rw [List.countP_cons, hb i]
        simp [hi1]
      · intro e he
        rcases List.mem_cons.mp he with rfl | he
        · refine ⟨?_, ?_, ?_, ?_⟩
          · intro i hi
            rw [hi1] at hi
            cases hi
          · intro i hi
            rw [hi2] at hi
            injection hi with hi
            subst hi
            exact ⟨p.2, hcs p (List.mem_cons_self _ _), by simp [hd2, getKeyInfo_fullText]⟩
          · intro ⟨i, hi⟩
            rw [hi1] at hi
            cases hi
          · intro _ _
            exact hs2 rfl (by simp)
        · exact hc e he

/-- Counting unmatched occurrences of an index over an index-enumerated list:
each position occurs exactly once, so the count is 1 exactly when the index
is in range and unmatched. -/
theorem countP_enumFrom_eq (l : List ClauseA) (m : List ℕ) (i : ℕ) :
    ∀ n, (enumFrom n l).countP (fun p => decide (p.1 = i) && decide (p.1 ∉ m))
      = if n ≤ i ∧ i < n + l.length ∧ i ∉ m then 1 else 0 := by
  induction l with
  | nil =>
    intro n
    rw [if_neg (by simp; omega)]
    simp [enumFrom]
  | cons c rest ih =>
    intro n
    simp only [enumFrom, List.countP_cons, ih (n + 1), List.length_cons]
    by_cases h1 : n = i
    · subst h1
      by_cases h2 : n ∈ m
      · simp [h2]
      · simp [h2]
    · by_cases h2 : i ∈ m
      · simp [h1, h2]
      · simp [h1, h2]
        split_ifs <;> omega

/-- C8: in a two-document comparison that completes, every clause of
document A and every clause of document B appears in exactly one
ComparisonEntry — consumed by at most one clause-type match, with every
leftover clause becoming its own single-sided residual entry whose
difference text is "Only present in Document N" (the `entrySound`
conjunct ties each populated side to exactly the source clause at the
recorded position and gives the residual text). -/
theorem comparison_partition (clauses1 clauses2 : List ClauseA) (entries : List CompEntry)
    (h : compareClausesDetailed clauses1 clauses2 = .ok entries) :
    (∀ i, i < clauses1.length → cntIdx CompEntry.doc1Idx entries i = 1)
      ∧ (∀ i, i < clauses2.length → cntIdx CompEntry.doc2Idx entries i = 1)
      ∧ (∀ e ∈ entries, entrySound clauses1 clauses2 e) := by
  unfold compareClausesDetailed at h
  simp only [] at h
  rcases hp : comparePhase1 clauseTypes (enumFrom 0 clauses1) (enumFrom 0 clauses2) [] [] []
    with err | out <;> rw [hp] at h
  · simp at h
  obtain ⟨m1, m2, table⟩ := out
  simp only [] at h
  rcases hr1 : residualPass true (enumFrom 0 clauses1) m1 with e1 | r1 <;> rw [hr1] at h
  · simp at h
  simp only [] at h
  rcases hr2 : residualPass false (enumFrom 0 clauses2) m2 with e2 | r2 <;> rw [hr2] at h
  · simp at h
  simp only [] at h
  injection h with h
  subst h
  have hcs1 : ∀ p ∈ enumFrom 0 clauses1, clauses1[p.1]? = some p.2 := by
    intro p hp2
    have hg := (enumFrom_getElem hp2).2.2
    simpa using hg
  have hcs2 : ∀ p ∈ enumFrom 0 clauses2, clauses2[p.1]? = some p.2 := by
    intro p hp2
    have hg := (enumFrom_getElem hp2).2.2
    simpa using hg
  obtain ⟨t1, t2, t3⟩ := comparePhase1_spec clauses1 clauses2 clauseTypes
    (enumFrom 0 clauses1) (enumFrom 0 clauses2) [] [] [] (m1, m2, table) hp hcs1 hcs2
    (by intro i; simp [cntIdx]) (by intro i; simp [cntIdx]) (by intro e he; cases he)
  obtain ⟨r1a, r1b, r1c⟩ := residualPass1_spec clauses1 clauses2 _ m1 r1 hr1 hcs1
  obtain ⟨r2a, r2b, r2c⟩ := residualPass2_spec clauses1 clauses2 _ m2 r2 hr2 hcs2
  refine ⟨?_, ?_, ?_⟩
  · intro i hi
    unfold cntIdx at t1 r1a r2b ⊢
    rw [List.countP_append, List.countP_append, t1 i, r1a i, r2b i,
      countP_enumFrom_eq clauses1 m1 i 0]
    by_cases him : i ∈ m1 <;> simp [him, hi]
  · intro i hi
    unfold cntIdx at t2 r2a r1b ⊢
    rw [List.countP_append, List.countP_append, t2 i, r2a i, r1b i,
      countP_enumFrom_eq clauses2 m2 i 0]
    by_cases him : i ∈ m2 <;> simp [him, hi]
  · intro e he
    rcases List.mem_append.mp he with he | he
    · rcases List.mem_append.mp he with he | he
      · exact t3 e he
      · exact r1c e he
    · exact r2c e he

/-- Witness for C8 at a concrete comparison (one warranty clause against an
empty document; the comparison completes and produces one residual entry). -/
theorem comparison_partition_witness :
    ∃ entries, compareClausesDetailed [warrantyClause] [] = .ok entries
      ∧ ((∀ i, i < ([warrantyClause] : List ClauseA).length →
            cntIdx CompEntry.doc1Idx entries i = 1)
        ∧ (∀ i, i < ([] : List ClauseA).length → cntIdx CompEntry.doc2Idx entries i = 1)
        ∧ (∀ e ∈ entries, entrySound [warrantyClause] [] e)) := by
  refine ⟨_, rfl, comparison_partition [warrantyClause] [] _ rfl⟩

/-- C3 fails on the code: the scenario text segments into ONE ClauseUnit, not
two.  The normalisation `replace(/\s+/g, ' ')` replaces the newline by a
space, and every splitting pattern (including the numbered-clause marker)
requires a literal newline, so no split ever fires; the merged clause even
matches the medium keyword "notice period" (score 2), though its rules
verdict is still Low. -/
theorem segmenter_scenario_single_unit :
    splitIntoClause c3Text 1000 = some [⟨0, c3Merged, 13, 17⟩]
      ∧ (analyzeRiskByRules c3Merged).riskLevel = .low
      ∧ (analyzeRiskByRules c3Merged).riskScore = 2
      ∧ (analyzeRiskByRules c3Merged).detectedKeywords = ["notice period"] := by
  refine ⟨by decide, by decide, by decide, by decide⟩

/-! ## C4 and C10: basic facts about trimming and whitespace collapsing -/

theorem mem_of_mem_takeWhile {p : Char → Bool} {a : Char} :
    ∀ {l : List Char}, a ∈ l.takeWhile p → a ∈ l := by
  intro l
  induction l with
  | nil => intro h; simp [List.takeWhile] at h
  | cons c r ih =>
    intro h
    rw [List.takeWhile_cons] at h
    by_cases hc : p c = true
    · rw [if_pos hc] at h
      rcases List.mem_cons.mp h with rfl | h
      · exact List.mem_cons_self _ _
      · exact List.mem_cons_of_mem _ (ih h)
    · rw [if_neg hc] at h
      cases h

theorem mem_of_mem_dropWhile {p : Char → Bool} {a : Char} :
    ∀ {l : List Char}, a ∈ l.dropWhile p → a ∈ l := by
  intro l
  induction l with
  | nil => intro h; simp [List.dropWhile] at h
  | cons c r ih =>
    intro h
    rw [List.dropWhile_cons] at h
    by_cases hc : p c = true
    · rw [if_pos hc] at h
      exact List.mem_cons_of_mem _ (ih h)
    · rw [if_neg hc] at h
      exact h

theorem mem_of_mem_dropTrailing {a : Char} :
    ∀ {l : List Char}, a ∈ dropTrailingWs l → a ∈ l := by
  intro l
  induction l with
  | nil => intro h; simp [dropTrailingWs] at h
  | cons c r ih =>
    intro h
    simp only [dropTrailingWs] at h
    by_cases hc : (dropTrailingWs r = [] ∧ jsWs c = true)
    · rw [if_pos (by simp [hc.1, hc.2])] at h
      cases h
    · rw [if_neg (by simp only [Bool.and_eq_true, decide_eq_true_eq]; exact hc)] at h
      rcases List.mem_cons.mp h with rfl | h
      · exact List.mem_cons_self _ _
      · exact List.mem_cons_of_mem _ (ih h)

theorem mem_of_mem_jsTrim {a : Char} {l : List Char} (h : a ∈ jsTrim l) : a ∈ l :=
  mem_of_mem_dropWhile (mem_of_mem_dropTrailing h)

theorem dropTrailingWs_eq_nil : ∀ {l : List Char}, dropTrailingWs l = [] →
    ∀ c ∈ l, jsWs c = true := by
  intro l
  induction l with
  | nil => intro _ c hc; cases hc
  | cons c r ih =>
    intro h d hd
    simp only [dropTrailingWs] at h
    by_cases hc : (dropTrailingWs r = [] ∧ jsWs c = true)
    · rcases List.mem_cons.mp hd with rfl | hd
      · exact hc.2
      · exact ih hc.1 d hd
    · rw [if_neg (by simp only [Bool.and_eq_true, decide_eq_true_eq]; exact hc)] at h
      cases h

theorem mem_takeWhile_ws {a : Char} :
    ∀ {l : List Char}, a ∈ l.takeWhile jsWs → jsWs a = true := by
  intro l
  induction l with
  | nil => intro h; simp [List.takeWhile] at h
  | cons c r ih =>
    intro h
    rw [List.takeWhile_cons] at h
    by_cases hc : jsWs c = true
    · rw [if_pos hc] at h
      rcases List.mem_cons.mp h with rfl | h
      · exact hc
      · exact ih h
    · rw [if_neg hc] at h
      cases h

theorem jsTrim_nil_allWs {l : List Char} (h : jsTrim l = []) :
    ∀ c ∈ l, jsWs c = true := by
  intro c hc
  have hall := dropTrailingWs_eq_nil h
  have hsplit := List.takeWhile_append_dropWhile (p := jsWs) (l := l)
  have hc2 : c ∈ l.takeWhile jsWs ∨ c ∈ l.dropWhile jsWs := by
    rw [← List.mem_append, hsplit]
    exact hc
  rcases hc2 with hc2 | hc2
  · exact mem_takeWhile_ws hc2
  · exact hall c hc2

theorem allWs_jsTrim_nil {l : List Char} (h : ∀ c ∈ l, jsWs c = true) :
    jsTrim l = [] := by
  unfold jsTrim
  have hd : l.dropWhile jsWs = [] := by
    rw [List.dropWhile_eq_nil_iff]
    exact h
  rw [hd]
  rfl

theorem nl_not_mem_collapseWs : ∀ (l : List Char) (b : Bool),
    '\n' ∉ collapseRunsAux jsWs ' ' l b := by
  intro l
  induction l with
  | nil => intro b h; cases h
  | cons c r ih =>
    intro b
    by_cases hc : jsWs c = true
    · cases b
      · simp only [collapseRunsAux, hc, if_true, if_false, Bool.false_eq_true]
        intro h
        rcases List.mem_cons.mp h with h | h
        · cases h
        · exact ih true h
      · simp only [collapseRunsAux, hc, if_true]
        exact ih true
    · simp only [collapseRunsAux, hc, Bool.false_eq_true, if_false]
      intro h
      rcases List.mem_cons.mp h with rfl | h
      · simp [jsWs] at hc
      · exact ih false h

theorem collapseNl_id : ∀ {l : List Char}, '\n' ∉ l → collapseNl l = l := by
  unfold collapseNl
  suffices hgen : ∀ (l : List Char), '\n' ∉ l →
      collapseRunsAux (fun c => c = '\n') '\n' l false = l by
    intro l h
    exact hgen l h
  intro l
  induction l with
  | nil => intro _; rfl
  | cons c r ih =>
    intro h
    have hc : (decide (c = '\n')) = false := by
      simp only [decide_eq_false_iff_not]
      intro hc
      exact h (hc ▸ List.mem_cons_self _ _)
    simp only [collapseRunsAux, hc, Bool.false_eq_true, if_false]
    rw [ih (fun hr => h (List.mem_cons_of_mem _ hr))]

theorem nonws_mem_collapseWs {c : Char} (hw : jsWs c = false) :
    ∀ (l : List Char) (b : Bool), c ∈ l → c ∈ collapseRunsAux jsWs ' ' l b := by
  intro l
  induction l with
  | nil => intro b h; cases h
  | cons d r ih =>
    intro b h
    by_cases hd : jsWs d = true
    · have hcr : c ∈ r := by
        rcases List.mem_cons.mp h with rfl | h
        · rw [hd] at hw; cases hw
        · exact h
      cases b
      · simp only [collapseRunsAux, hd, if_true, Bool.false_eq_true, if_false]
        exact List.mem_cons_of_mem _ (ih true hcr)
      · simp only [collapseRunsAux, hd, if_true]
        exact ih true hcr
    · simp only [collapseRunsAux, hd, Bool.false_eq_true, if_false]
      rcases List.mem_cons.mp h with rfl | h
      · exact List.mem_cons_self _ _
      · exact List.mem_cons_of_mem _ (ih false h)

theorem collapseRunsAux_allWs {l : List Char} (h : ∀ c ∈ l, jsWs c = true) :
    collapseRunsAux jsWs ' ' l true = [] := by
  induction l with
  | nil => rfl
  | cons c r ih =>
    have hc := h c (List.mem_cons_self _ _)
    simp only [collapseRunsAux, hc, if_true]
    exact ih (fun d hd => h d (List.mem_cons_of_mem _ hd))

theorem allWs_normalize_nil {l : List Char} (h : ∀ c ∈ l, jsWs c = true) :
    jsNormalize l = [] := by
  unfold jsNormalize collapseWs
  cases l with
  | nil => rfl
  | cons c r =>
    have hc := h c (List.mem_cons_self _ _)
    simp only [collapseRunsAux, hc, if_true, Bool.false_eq_true, if_false]
    rw [collapseRunsAux_allWs (fun d hd => h d (List.mem_cons_of_mem _ hd))]
    rfl

theorem collapseRunsAux_length_le (p : Char → Bool) (rep : Char) :
    ∀ (l : List Char) (b : Bool),
    (collapseRunsAux p rep l b).length ≤ l.length := by
  intro l
  induction l with
  | nil => intro b; simp [collapseRunsAux]
  | cons c r ih =>
    intro b
    by_cases hc : p c = true
    · cases b
      · simp only [collapseRunsAux, hc, if_true, Bool.false_eq_true, if_false,
          List.length_cons]
        exact Nat.succ_le_succ (ih true)
      · simp only [collapseRunsAux, hc, if_true, List.length_cons]
        exact Nat.le_succ_of_le (ih true)
    · simp only [collapseRunsAux, hc, Bool.false_eq_true, if_false, List.length_cons]
      exact Nat.succ_le_succ (ih false)

theorem dropTrailingWs_length_le : ∀ (l : List Char),
    (dropTrailingWs l).length ≤ l.length := by
  intro l
  induction l with
  | nil => simp [dropTrailingWs]
  | cons c r ih =>
    simp only [dropTrailingWs]
    by_cases hc : (decide (dropTrailingWs r = []) && jsWs c) = true
    · rw [if_pos hc]
      simp
    · rw [if_neg hc]
      simp only [List.length_cons]
      exact Nat.succ_le_succ ih

theorem jsTrim_length_le (l : List Char) : (jsTrim l).length ≤ l.length := by
  unfold jsTrim
  calc (dropTrailingWs (l.dropWhile jsWs)).length
      ≤ (l.dropWhile jsWs).length := dropTrailingWs_length_le _
    _ ≤ l.length := by
        have := List.takeWhile_append_dropWhile (p := jsWs) (l := l)
        have hlen : (l.takeWhile jsWs).length + (l.dropWhile jsWs).length = l.length := by
          rw [← List.length_append, this]
        omega

/-! ## C4 and C10: after normalization no split pattern can match -/

theorem matchNumbered_none {l : List Char} (h : '\n' ∉ l) : matchNumbered l = none := by
  cases l with
  | nil => rfl
  | cons c r =>
    have hc : ¬ (c = '\n') := fun hc => h (hc ▸ List.mem_cons_self _ _)
    simp [matchNumbered, hc]

theorem matchLettered_none {l : List Char} (h : '\n' ∉ l) : matchLettered l = none := by
  cases l with
  | nil => rfl
  | cons c r =>
    have hc : ¬ (c = '\n') := fun hc => h (hc ▸ List.mem_cons_self _ _)
    simp [matchLettered, hc]

theorem matchWordNum_none {w l : List Char} (h : '\n' ∉ l) : matchWordNum w l = none := by
  cases l with
  | nil => rfl
  | cons c r =>
    have hc : ¬ (c = '\n') := fun hc => h (hc ▸ List.mem_cons_self _ _)
    simp [matchWordNum, hc]

theorem matchSentenceBreak_none {l : List Char} (h : '\n' ∉ l) :
    matchSentenceBreak l = none := by
  cases l with
  | nil => rfl
  | cons c r =>
    by_cases hcdot : c = '.'
    · subst hcdot
      have hmem : '\n' ∉ List.takeWhile jsWs r :=
        fun hm => h (List.mem_cons_of_mem _ (mem_of_mem_takeWhile hm))
      have hrun : (List.takeWhile jsWs r).contains '\n' = false := by
        simpa using hmem
      simp only [matchSentenceBreak, hrun]
      simp
    · simp [matchSentenceBreak, hcdot]

theorem splitGo_no_match (f : List Char → Option ℕ)
    (hf : ∀ s : List Char, '\n' ∉ s → f s = none) :
    ∀ (l : List Char), '\n' ∉ l → ∀ (cur : List Char) (acc : List (List Char)),
      splitGo f l 0 cur acc = acc ++ [cur.reverse ++ l] := by
  intro l
  induction l with
  | nil =>
    intro _ cur acc
    simp [splitGo]
  | cons c r ih =>
    intro hl cur acc
    have htail : '\n' ∉ r := fun hr => hl (List.mem_cons_of_mem _ hr)
    have h0 : splitGo f (c :: r) 0 cur acc = splitGo f r 0 (c :: cur) acc := by
      simp [splitGo, hf (c :: r) hl]
    rw [h0, ih htail (c :: cur) acc]
    simp

theorem applyIndicator_singleton (f : List Char → Option ℕ)
    (hf : ∀ s : List Char, '\n' ∉ s → f s = none)
    (ct : List Char) (hct : '\n' ∉ ct) (h2 : jsTrim ct = ct) (h3 : ct ≠ []) :
    applyIndicator f [ct] = [ct] := by
  have hsplit : splitByRe f ct = [ct] := by
    unfold splitByRe
    rw [splitGo_no_match f hf ct hct [] []]
    simp
  simp [applyIndicator, hsplit, h2, h3]

theorem markerPass_singleton (ct : List Char) (hct : '\n' ∉ ct)
    (h2 : jsTrim ct = ct) (h3 : ct ≠ []) :
    markerPass [ct] = [ct] := by
  have e1 := applyIndicator_singleton matchNumbered
    (fun s hs => matchNumbered_none hs) ct hct h2 h3
  have e2 := applyIndicator_singleton matchLettered
    (fun s hs => matchLettered_none hs) ct hct h2 h3
  have e3 := applyIndicator_singleton (matchWordNum "article".data)
    (fun s hs => matchWordNum_none hs) ct hct h2 h3
  have e4 := applyIndicator_singleton (matchWordNum "section".data)
    (fun s hs => matchWordNum_none hs) ct hct h2 h3
  have e5 := applyIndicator_singleton (matchWordNum "clause".data)
    (fun s hs => matchWordNum_none hs) ct hct h2 h3
  have e6 := applyIndicator_singleton matchSentenceBreak
    (fun s hs => matchSentenceBreak_none hs) ct hct h2 h3
  simp only [markerPass, clauseIndicators, List.foldl_cons, List.foldl_nil]
  rw [e1, e2, e3, e4, e5, e6]

/-! ## C4 and C10: the collapsed-and-trimmed shape of the normalized text -/

theorem pairB_tail {c : Char} {z : List Char} (h : pairB (c :: z) = true) :
    pairB z = true := by
  cases z with
  | nil => rfl
  | cons d r =>
    simp only [pairB, Bool.and_eq_true] at h
    exact h.2

theorem pairB_pair {c d : Char} {r : List Char} (h : pairB (c :: d :: r) = true)
    (hw : jsWs c = true) : c = ' ' ∧ jsWs d = false := by
  simp only [pairB, Bool.and_eq_true, Bool.or_eq_true, Bool.not_eq_true',
    decide_eq_true_eq] at h
  rcases h.1 with h1 | h1
  · rw [hw] at h1
    cases h1
  · exact h1

theorem pairB_cons_of {c : Char} {z : List Char} (hz : pairB z = true)
    (hc : jsWs c = false ∨ (c = ' ' ∧ headNonWs z = true)) : pairB (c :: z) = true := by
  cases z with
  | nil => rfl
  | cons d r =>
    simp only [pairB, Bool.and_eq_true, Bool.or_eq_true, Bool.not_eq_true',
      decide_eq_true_eq]
    refine ⟨?_, hz⟩
    rcases hc with hc | ⟨hc1, hc2⟩
    · exact Or.inl hc
    · refine Or.inr ⟨hc1, ?_⟩
      simpa [headNonWs] using hc2

theorem headNonWs_collapse_true : ∀ (l : List Char),
    headNonWs (collapseRunsAux jsWs ' ' l true) = true := by
  intro l
  induction l with
  | nil => rfl
  | cons c r ih =>
    by_cases hc : jsWs c = true
    · simpa [collapseRunsAux, hc] using ih
    · simp [collapseRunsAux, hc, headNonWs]

theorem pairB_collapse : ∀ (l : List Char) (b : Bool),
    pairB (collapseRunsAux jsWs ' ' l b) = true := by
  intro l
  induction l with
  | nil => intro b; rfl
  | cons c r ih =>
    intro b
    by_cases hc : jsWs c = true
    · cases b
      · simp only [collapseRunsAux, hc, if_true, Bool.false_eq_true, if_false]
        exact pairB_cons_of (ih true) (Or.inr ⟨rfl, headNonWs_collapse_true r⟩)
      · simp only [collapseRunsAux, hc, if_true]
        exact ih true
    · simp only [collapseRunsAux, hc, Bool.false_eq_true, if_false]
      exact pairB_cons_of (ih false) (Or.inl (by simpa using hc))

theorem pairB_dropWhile {l : List Char} (h : pairB l = true) :
    pairB (l.dropWhile jsWs) = true := by
  induction l with
  | nil => exact h
  | cons c r ih =>
    rw [List.dropWhile_cons]
    by_cases hc : jsWs c = true
    · rw [if_pos hc]
      exact ih (pairB_tail h)
    · rw [if_neg hc]
      exact h

theorem dropTrailing_head : ∀ (l : List Char),
    dropTrailingWs l = [] ∨ (dropTrailingWs l).head? = l.head? := by
  intro l
  cases l with
  | nil => exact Or.inl rfl
  | cons c r =>
    simp only [dropTrailingWs]
    by_cases hcond : (decide (dropTrailingWs r = []) && jsWs c) = true
    · rw [if_pos hcond]
      exact Or.inl rfl
    · rw [if_neg hcond]
      exact Or.inr rfl

theorem pairB_dropTrailing : ∀ {l : List Char}, pairB l = true →
    pairB (dropTrailingWs l) = true := by
  intro l
  induction l with
  | nil => intro _; rfl
  | cons c r ih =>
    intro h
    simp only [dropTrailingWs]
    by_cases hcond : (decide (dropTrailingWs r = []) && jsWs c) = true
    · rw [if_pos hcond]
      rfl
    · rw [if_neg hcond]
      refine pairB_cons_of (ih (pairB_tail h)) ?_
      by_cases hw : jsWs c = true
      · have hr' : dropTrailingWs r ≠ [] := by
          intro hnil
          exact hcond (by simp [hnil, hw])
        have hrne : r ≠ [] := by
          intro hnil
          subst hnil
          exact hr' rfl
        obtain ⟨d, r2, rfl⟩ := List.exists_cons_of_ne_nil hrne
        have hpd := pairB_pair h hw
        refine Or.inr ⟨hpd.1, ?_⟩
        rcases dropTrailing_head (d :: r2) with hnil | hhead
        · exact absurd hnil hr'
        · obtain ⟨x, xs, hx⟩ := List.exists_cons_of_ne_nil hr'
          rw [hx] at hhead
          simp only [List.head?_cons, Option.some.injEq] at hhead
          rw [hx]
          simp [headNonWs, hhead, hpd.2]
      · exact Or.inl (by simpa using hw)

theorem lastNonWs_cons_ne {c : Char} {z : List Char} (h : z ≠ []) :
    lastNonWs (c :: z) = lastNonWs z := by
  obtain ⟨d, r, rfl⟩ := List.exists_cons_of_ne_nil h
  rfl

theorem lastNonWs_dropTrailing : ∀ (l : List Char),
    lastNonWs (dropTrailingWs l) = true := by
  intro l
  induction l with
  | nil => rfl
  | cons c r ih =>
    simp only [dropTrailingWs]
    by_cases hcond : (decide (dropTrailingWs r = []) && jsWs c) = true
    · rw [if_pos hcond]
      rfl
    · rw [if_neg hcond]
      by_cases hr' : dropTrailingWs r = []
      · have hw : jsWs c = false := by
          cases hw2 : jsWs c
          · rfl
          · exact absurd (by simp [hr', hw2]) hcond
        rw [hr']
        simp [lastNonWs, hw]
      · rw [lastNonWs_cons_ne hr']
        exact ih

theorem headNonWs_dropWhile : ∀ (l : List Char), headNonWs (l.dropWhile jsWs) = true := by
  intro l
  induction l with
  | nil => rfl
  | cons c r ih =>
    rw [List.dropWhile_cons]
    by_cases hc : jsWs c = true
    · rw [if_pos hc]
      exact ih
    · rw [if_neg hc]
      simp [headNonWs, hc]

theorem headNonWs_dropTrailing {l : List Char} (h : headNonWs l = true) :
    headNonWs (dropTrailingWs l) = true := by
  rcases dropTrailing_head l with hnil | hhead
  · rw [hnil]
    rfl
  · cases hl : dropTrailingWs l with
    | nil => rfl
    | cons x xs =>
      rw [hl] at hhead
      cases l with
      | nil => simp [dropTrailingWs] at hl
      | cons c r =>
        simp only [List.head?_cons, Option.some.injEq] at hhead
        subst hhead
        simpa [headNonWs] using h

theorem pairB_jsTrim {l : List Char} (h : pairB l = true) : pairB (jsTrim l) = true :=
  pairB_dropTrailing (pairB_dropWhile h)

theorem headNonWs_jsTrim (l : List Char) : headNonWs (jsTrim l) = true :=
  headNonWs_dropTrailing (headNonWs_dropWhile l)

theorem lastNonWs_jsTrim (l : List Char) : lastNonWs (jsTrim l) = true :=
  lastNonWs_dropTrailing _

/-! ## C4 and C10: trimming is the identity on canonical text -/

theorem dropTrailingWs_id : ∀ {l : List Char}, lastNonWs l = true →
    dropTrailingWs l = l := by
  intro l
  induction l with
  | nil => intro _; rfl
  | cons c r ih =>
    intro h
    cases r with
    | nil =>
      have hw : jsWs c = false := by simpa [lastNonWs] using h
      simp [dropTrailingWs, hw]
    | cons d r2 =>
      have h2 : lastNonWs (d :: r2) = true := h
      have hr' := ih h2
      have hout : dropTrailingWs (c :: d :: r2) =
          (if (decide (dropTrailingWs (d :: r2) = []) && jsWs c) = true then []
           else c :: dropTrailingWs (d :: r2)) := rfl
      rw [hout, hr']
      simp

theorem jsTrim_id {l : List Char} (hhead : headNonWs l = true)
    (hlast : lastNonWs l = true) : jsTrim l = l := by
  unfold jsTrim
  have hdw : l.dropWhile jsWs = l := by
    cases l with
    | nil => rfl
    | cons c r =>
      rw [List.dropWhile_cons, if_neg (by simpa [headNonWs] using hhead)]
  rw [hdw, dropTrailingWs_id hlast]

/-! ## C4 and C10: words of canonical text -/

theorem wordsAux_ne : ∀ (x cur : List Char), cur ≠ [] → wordsAux x cur ≠ [] := by
  intro x
  induction x with
  | nil =>
    intro cur h
    simp [wordsAux, h]
  | cons c r ih =>
    intro cur h
    by_cases hw : jsWs c = true
    · simp [wordsAux, hw, h]
    · simpa [wordsAux, hw] using ih (c :: cur) (by simp)

theorem joinSp_cons_ne (a : List Char) {z : List (List Char)} (h : z ≠ []) :
    joinSp (a :: z) = a ++ ' ' :: joinSp z := by
  obtain ⟨b, t, rfl⟩ := List.exists_cons_of_ne_nil h
  rfl

theorem wordsAux_ok : ∀ (x cur : List Char), (∀ c ∈ cur, jsWs c = false) →
    ∀ w ∈ wordsAux x cur, w ≠ [] ∧ ∀ c ∈ w, jsWs c = false := by
  intro x
  induction x with
  | nil =>
    intro cur hcur w hw
    by_cases h : cur = []
    · subst h
      simp [wordsAux] at hw
    · simp only [wordsAux, h, Bool.false_eq_true, if_false] at hw
      have hw2 : w = cur.reverse := by simpa using hw
      subst hw2
      refine ⟨by simpa using h, ?_⟩
      intro c hc
      exact hcur c (List.mem_reverse.mp hc)
  | cons c r ih =>
    intro cur hcur w hw
    by_cases hws : jsWs c = true
    · by_cases h : cur = []
      · subst h
        simp only [wordsAux, hws, if_true] at hw
        exact ih [] (by intro a ha; cases ha) w hw
      · simp only [wordsAux, hws, if_true, h, Bool.false_eq_true, if_false] at hw
        rcases List.mem_cons.mp hw with rfl | hw
        · refine ⟨by simpa using h, ?_⟩
          intro a ha
          exact hcur a (List.mem_reverse.mp ha)
        · exact ih [] (by intro a ha; cases ha) w hw
    · simp only [wordsAux, hws, Bool.false_eq_true, if_false] at hw
      refine ih (c :: cur) ?_ w hw
      intro a ha
      rcases List.mem_cons.mp ha with rfl | ha
      · simpa using hws
      · exact hcur a ha

theorem lastNonWs_tail {c : Char} {z : List Char} (h : lastNonWs (c :: z) = true) :
    lastNonWs z = true := by
  cases z with
  | nil => rfl
  | cons d r => exact h

theorem wordsAux_join : ∀ (x cur : List Char), (∀ c ∈ cur, jsWs c = false) →
    pairB x = true → lastNonWs x = true → (cur = [] → headNonWs x = true) →
    joinSp (wordsAux x cur) = (if cur = [] then x else cur.reverse ++ x) := by
  intro x
  induction x with
  | nil =>
    intro cur hcur _ _ _
    by_cases hc : cur = []
    · subst hc
      simp [wordsAux, joinSp]
    · simp [wordsAux, hc, joinSp]
  | cons c r ih =>
    intro cur hcur hpair hlast hhead
    by_cases hw : jsWs c = true
    · have hcur_ne : cur ≠ [] := by
        intro hnil
        have := hhead hnil
        simp [headNonWs, hw] at this
      cases r with
      | nil => simp [lastNonWs, hw] at hlast
      | cons d r2 =>
        have hpd := pairB_pair hpair hw
        have hstep : wordsAux (c :: d :: r2) cur = cur.reverse :: wordsAux (d :: r2) [] := by
          simp [wordsAux, hw, hcur_ne]
        rw [hstep]
        have hne2 : wordsAux (d :: r2) [] ≠ [] := by
          have : wordsAux (d :: r2) [] = wordsAux r2 [d] := by
            simp [wordsAux, hpd.2]
          rw [this]
          exact wordsAux_ne r2 [d] (by simp)
        rw [joinSp_cons_ne _ hne2]
        rw [ih [] (by intro a ha; cases ha) (pairB_tail hpair) (lastNonWs_tail hlast)
          (fun _ => by simp [headNonWs, hpd.2])]
        rw [hpd.1]
        simp [hcur_ne]
    · have hstep : wordsAux (c :: r) cur = wordsAux r (c :: cur) := by
        simp [wordsAux, hw]
      rw [hstep]
      rw [ih (c :: cur)
        (by
          intro a ha
          rcases List.mem_cons.mp ha with rfl | ha
          · simpa using hw
          · exact hcur a ha)
        (pairB_tail hpair) (lastNonWs_tail hlast) (fun h => absurd h (by simp))]
      simp only [List.cons_ne_nil, Bool.false_eq_true, if_false, List.reverse_cons]
      by_cases hc : cur = [] <;> simp [hc]

theorem wordsOf_join {x : List Char} (hpair : pairB x = true)
    (hhead : headNonWs x = true) (hlast : lastNonWs x = true) :
    joinSp (wordsOf x) = x := by
  unfold wordsOf
  rw [wordsAux_join x [] (by intro c hc; cases hc) hpair hlast (fun _ => hhead)]
  rfl

theorem wordsAux_length_le : ∀ (x cur : List Char),
    (wordsAux x cur).length ≤ x.length + 1 := by
  intro x
  induction x with
  | nil =>
    intro cur
    by_cases h : cur = [] <;> simp [wordsAux, h]
  | cons c r ih =>
    intro cur
    by_cases hw : jsWs c = true
    · by_cases h : cur = []
      · subst h
        simp only [wordsAux, hw, if_true, List.length_cons]
        exact Nat.le_succ_of_le (ih [])
      · simp only [wordsAux, hw, if_true, h, Bool.false_eq_true, if_false,
          List.length_cons]
        exact Nat.succ_le_succ (ih [])
    · simp only [wordsAux, hw, Bool.false_eq_true, if_false, List.length_cons]
      exact Nat.le_succ_of_le (ih (c :: cur))

/-! ## C4 and C10: word-window chunks reassemble to the word list -/

theorem joinSp_ne_nil {w : List Char} (t : List (List Char)) (h : w ≠ []) :
    joinSp (w :: t) ≠ [] := by
  cases t with
  | nil => exact h
  | cons b t2 =>
    rw [joinSp_cons_ne _ (by simp)]
    simp [h]

theorem headNonWs_joinSp {W : List (List Char)}
    (hW : ∀ w ∈ W, w ≠ [] ∧ ∀ c ∈ w, jsWs c = false) :
    headNonWs (joinSp W) = true := by
  cases W with
  | nil => rfl
  | cons w t =>
    obtain ⟨hne, hok⟩ := hW w (List.mem_cons_self _ _)
    obtain ⟨c, w2, rfl⟩ := List.exists_cons_of_ne_nil hne
    have hc := hok c (List.mem_cons_self _ _)
    cases t with
    | nil => simp [joinSp, headNonWs, hc]
    | cons b t2 =>
      rw [joinSp_cons_ne _ (by simp)]
      simp [headNonWs, hc]

theorem lastNonWs_append {x z : List Char} (hz : z ≠ []) :
    lastNonWs (x ++ z) = lastNonWs z := by
  induction x with
  | nil => rfl
  | cons c x2 ih =>
    rw [List.cons_append, lastNonWs_cons_ne (by simp [hz]), ih]

theorem lastNonWs_of_nonws : ∀ {w : List Char}, (∀ c ∈ w, jsWs c = false) →
    lastNonWs w = true := by
  intro w
  induction w with
  | nil => intro _; rfl
  | cons c r ih =>
    intro h
    cases r with
    | nil => simp [lastNonWs, h c (List.mem_cons_self _ _)]
    | cons d r2 =>
      rw [lastNonWs_cons_ne (by simp)]
      exact ih (fun a ha => h a (List.mem_cons_of_mem _ ha))

theorem lastNonWs_joinSp : ∀ {W : List (List Char)},
    (∀ w ∈ W, w ≠ [] ∧ ∀ c ∈ w, jsWs c = false) → lastNonWs (joinSp W) = true := by
  intro W
  induction W with
  | nil => intro _; rfl
  | cons w t ih =>
    intro hW
    cases t with
    | nil => exact lastNonWs_of_nonws (hW w (List.mem_cons_self _ _)).2
    | cons b t2 =>
      rw [joinSp_cons_ne _ (by simp)]
      have hb := hW b (List.mem_cons_of_mem _ (List.mem_cons_self _ _))
      have hj : joinSp (b :: t2) ≠ [] := joinSp_ne_nil t2 hb.1
      rw [lastNonWs_append (by simp), lastNonWs_cons_ne hj]
      exact ih (fun a ha => hW a (List.mem_cons_of_mem _ ha))

theorem jsTrim_joinSp {W : List (List Char)}
    (hW : ∀ w ∈ W, w ≠ [] ∧ ∀ c ∈ w, jsWs c = false) :
    jsTrim (joinSp W) = joinSp W :=
  jsTrim_id (headNonWs_joinSp hW) (lastNonWs_joinSp hW)

theorem joinSp_append {X Y : List (List Char)} (hX : X ≠ []) (hY : Y ≠ []) :
    joinSp (X ++ Y) = joinSp X ++ ' ' :: joinSp Y := by
  induction X with
  | nil => exact absurd rfl hX
  | cons x X2 ih =>
    cases X2 with
    | nil =>
      rw [List.singleton_append, joinSp_cons_ne _ hY]
      rfl
    | cons x2 X3 =>
      rw [List.cons_append, joinSp_cons_ne _ (by simp [hY]),
        joinSp_cons_ne _ (by simp), ih (by simp)]
      simp

theorem chunkTexts_ne {cs : ℕ} {s : List (List Char)} (h : s ≠ []) :
    chunkTexts cs s ≠ [] := by
  obtain ⟨w, t, rfl⟩ := List.exists_cons_of_ne_nil h
  rw [chunkTexts]
  simp

theorem chunkTexts_join (cs : ℕ) :
    ∀ (n : ℕ) (W : List (List Char)), W.length ≤ n → (∀ w ∈ W, w ≠ []) →
      joinSp (chunkTexts cs W) = joinSp W := by
  intro n
  induction n with
  | zero =>
    intro W hn _
    have hnil : W = [] := List.eq_nil_of_length_eq_zero (by omega)
    subst hnil
    rw [chunkTexts]
  | succ n ih =>
    intro W hn hne
    cases W with
    | nil => rw [chunkTexts]
    | cons w ws =>
      rw [chunkTexts]
      by_cases hdrop : ws.drop (cs - 1) = []
      · rw [hdrop]
        have htake : ws.take (cs - 1) = ws :=
          List.take_of_length_le (by
            have := List.drop_eq_nil_iff.mp hdrop
            omega)
        rw [chunkTexts]
        simp only [joinSp, htake]
      · have hlen : (ws.drop (cs - 1)).length ≤ n := by
          rw [List.length_drop]
          simp only [List.length_cons] at hn
          omega
        rw [joinSp_cons_ne _ (chunkTexts_ne hdrop),
          ih (ws.drop (cs - 1)) hlen
            (fun w2 hw2 => hne w2 (List.mem_cons_of_mem _ (List.mem_of_mem_drop hw2))),
          ← joinSp_append (by simp) hdrop, List.cons_append, List.take_append_drop]

/-! ## C4 and C10: the word-window loop -/

theorem chunkLoop_spec (cs : ℕ) (hcs : 1 ≤ cs) (words : List (List Char))
    (hW : ∀ w ∈ words, w ≠ [] ∧ ∀ c ∈ w, jsWs c = false) :
    ∀ (fuel : ℕ), ∀ (i idx : ℕ) (acc : List ClauseUnit), words.length ≤ i + fuel →
      ∃ us, chunkLoop cs words fuel i idx acc = some us
        ∧ us.map (fun u => u.text.data)
            = acc.map (fun u => u.text.data) ++ chunkTexts cs (words.drop i) := by
  intro fuel
  induction fuel with
  | zero =>
    intro i idx acc h
    have hge : ¬ i < words.length := by omega
    refine ⟨acc, by simp [chunkLoop, hge], ?_⟩
    rw [List.drop_eq_nil_of_le (by omega), chunkTexts]
    simp
  | succ f ih =>
    intro i idx acc h
    by_cases hi : i < words.length
    · have hs : words.drop i ≠ [] := by
        rw [ne_eq, List.drop_eq_nil_iff]
        omega
      obtain ⟨w, t, hwt⟩ := List.exists_cons_of_ne_nil hs
      have htake : (words.drop i).take cs = w :: t.take (cs - 1) := by
        rw [hwt]
        cases cs with
        | zero => omega
        | succ k => simp [List.take_succ_cons]
      have hdropcs : words.drop (i + cs) = t.drop (cs - 1) := by
        rw [← List.drop_drop, hwt]
        cases cs with
        | zero => omega
        | succ k => simp [List.drop_succ_cons]
      have hwchunk : ∀ w2 ∈ w :: t.take (cs - 1), w2 ≠ [] ∧ ∀ c ∈ w2, jsWs c = false := by
        intro w2 hw2
        apply hW
        apply List.mem_of_mem_drop (n := i)
        rw [← htake] at hw2
        exact List.mem_of_mem_take hw2
      have hchunk_trim : jsTrim (joinSp (w :: t.take (cs - 1))) = joinSp (w :: t.take (cs - 1)) :=
        jsTrim_joinSp hwchunk
      have hchunk_ne : joinSp (w :: t.take (cs - 1)) ≠ [] :=
        joinSp_ne_nil _ (hwchunk w (List.mem_cons_self _ _)).1
      have hstep : chunkLoop cs words (f + 1) i idx acc
          = chunkLoop cs words f (i + cs) (idx + 1)
              (acc ++ [mkChunkUnit idx (joinSp ((words.drop i).take cs))]) := by
        simp only [chunkLoop, hi, if_true]
        rw [htake, hchunk_trim]
        simp [List.isEmpty_iff, hchunk_ne, htake]
      obtain ⟨us, hus, hmap⟩ := ih (i + cs) (idx + 1)
        (acc ++ [mkChunkUnit idx (joinSp ((words.drop i).take cs))]) (by omega)
      refine ⟨us, by rw [hstep]; exact hus, ?_⟩
      rw [hmap, hdropcs]
      have htext : (mkChunkUnit idx (joinSp ((words.drop i).take cs))).text.data
          = joinSp (w :: t.take (cs - 1)) := by
        simp only [mkChunkUnit, htake, hchunk_trim]
      have hct : chunkTexts cs (words.drop i)
          = joinSp (w :: t.take (cs - 1)) :: chunkTexts cs (t.drop (cs - 1)) := by
        rw [hwt, chunkTexts]
      rw [hct]
      simp [htext]
    · refine ⟨acc, by simp [chunkLoop, hi], ?_⟩
      rw [List.drop_eq_nil_of_le (by omega), chunkTexts]
      simp

theorem chunkLoop_zero (words : List (List Char)) (hne : words ≠ []) :
    ∀ (fuel idx : ℕ) (acc : List ClauseUnit),
      chunkLoop 0 words fuel 0 idx acc = none := by
  intro fuel
  induction fuel with
  | zero =>
    intro idx acc
    have hi : 0 < words.length := List.length_pos_of_ne_nil hne
    simp [chunkLoop, hi]
  | succ f ih =>
    intro idx acc
    have hi : 0 < words.length := List.length_pos_of_ne_nil hne
    have hchunk : joinSp ((words.drop 0).take 0) = [] := by
      simp [joinSp]
    simp only [chunkLoop, hi, if_true, hchunk]
    have : jsTrim ([] : List Char) = [] := rfl
    simp only [this, List.isEmpty_nil, if_true]
    exact ih idx acc

/-! ## C4 and C10: assembling the segmenter laws -/

theorem segmentClause_spec (maxTokens fuel idx : ℕ) (ct : List Char)
    (hcs : 1 ≤ (10 * maxTokens) / 13)
    (hpair : pairB ct = true) (hhead : headNonWs ct = true) (hlast : lastNonWs ct = true)
    (hfuel : (wordsOf ct).length ≤ fuel) :
    ∃ p, segmentClause maxTokens fuel idx ct = some p
      ∧ joinSp (p.2.map (fun u => u.text.data)) = ct := by
  have htr : jsTrim ct = ct := jsTrim_id hhead hlast
  have hWok : ∀ w ∈ wordsOf ct, w ≠ [] ∧ ∀ c ∈ w, jsWs c = false :=
    wordsAux_ok ct [] (by intro c hc; cases hc)
  unfold segmentClause
  rw [htr]
  by_cases hcond : 13 * (wordsOf ct).length ≤ 10 * maxTokens
  · rw [if_pos hcond]
    refine ⟨_, rfl, ?_⟩
    show joinSp [ct] = ct
    rfl
  · rw [if_neg hcond]
    obtain ⟨us, hus, hmap⟩ := chunkLoop_spec ((10 * maxTokens) / 13) hcs (wordsOf ct)
      hWok fuel 0 idx [] (by omega)
    rw [hus]
    refine ⟨_, rfl, ?_⟩
    show joinSp (us.map (fun u => u.text.data)) = ct
    rw [hmap]
    simp only [List.map_nil, List.nil_append, List.drop_zero]
    rw [chunkTexts_join _ (wordsOf ct).length _ le_rfl (fun w hw => (hWok w hw).1)]
    exact wordsOf_join hpair hhead hlast

theorem jsNormalize_facts (text : String) (hne : jsTrim text.data ≠ []) :
    pairB (jsNormalize text.data) = true
      ∧ headNonWs (jsNormalize text.data) = true
      ∧ lastNonWs (jsNormalize text.data) = true
      ∧ '\n' ∉ jsNormalize text.data
      ∧ jsTrim (jsNormalize text.data) = jsNormalize text.data
      ∧ jsNormalize text.data ≠ [] := by
  have hnl1 : '\n' ∉ collapseWs text.data := nl_not_mem_collapseWs _ false
  have hcteq : jsNormalize text.data = jsTrim (collapseWs text.data) := by
    unfold jsNormalize
    rw [collapseNl_id hnl1]
  have hpair : pairB (jsNormalize text.data) = true := by
    rw [hcteq]
    exact pairB_jsTrim (pairB_collapse _ false)
  have hhead : headNonWs (jsNormalize text.data) = true := by
    rw [hcteq]
    exact headNonWs_jsTrim _
  have hlast : lastNonWs (jsNormalize text.data) = true := by
    rw [hcteq]
    exact lastNonWs_jsTrim _
  refine ⟨hpair, hhead, hlast, ?_, jsTrim_id hhead hlast, ?_⟩
  · rw [hcteq]
    exact fun h => hnl1 (mem_of_mem_jsTrim h)
  · obtain ⟨c, hcmem, hcnw⟩ : ∃ c ∈ text.data, jsWs c = false := by
      by_contra hall
      push_neg at hall
      refine hne (allWs_jsTrim_nil ?_)
      intro c hc
      cases h2 : jsWs c
      · exact absurd h2 (hall c hc)
      · rfl
    have hc2 : c ∈ collapseWs text.data := nonws_mem_collapseWs hcnw _ false hcmem
    rw [hcteq]
    intro hnil
    have := jsTrim_nil_allWs hnil c hc2
    rw [this] at hcnw
    cases hcnw

theorem splitIntoClauseFuel_spec (text : String) (maxTokens fuel : ℕ)
    (hcs : 1 ≤ (10 * maxTokens) / 13)
    (hfuel : (wordsOf (jsNormalize text.data)).length ≤ fuel) :
    ∃ units, splitIntoClauseFuel fuel text maxTokens = some units
      ∧ joinSp (units.map (fun u => u.text.data)) = jsNormalize text.data := by
  unfold splitIntoClauseFuel
  by_cases hempty : jsTrim text.data = []
  · rw [if_pos (by simp [List.isEmpty_iff, hempty])]
    refine ⟨[], rfl, ?_⟩
    rw [allWs_normalize_nil (jsTrim_nil_allWs hempty)]
    rfl
  · rw [if_neg (by simp [List.isEmpty_iff, hempty])]
    obtain ⟨hpair, hhead, hlast, hnl, htrim, hctne⟩ := jsNormalize_facts text hempty
    rw [markerPass_singleton _ hnl htrim hctne]
    obtain ⟨⟨idx2, us⟩, hseg, hjoin⟩ :=
      segmentClause_spec maxTokens fuel 0 _ hcs hpair hhead hlast hfuel
    refine ⟨us ++ [], ?_, ?_⟩
    · simp only [segmentAll, hseg]
    · simpa using hjoin

theorem splitIntoClause_spec (text : String) (maxTokens : ℕ)
    (hcs : 1 ≤ (10 * maxTokens) / 13) :
    ∃ units, splitIntoClause text maxTokens = some units
      ∧ joinSp (units.map (fun u => u.text.data)) = jsNormalize text.data := by
  unfold splitIntoClause
  apply splitIntoClauseFuel_spec text maxTokens _ hcs
  have h1 : (jsNormalize text.data).length ≤ text.data.length := by
    unfold jsNormalize collapseWs collapseNl
    calc (jsTrim (collapseRunsAux (fun c => c = '\n') '\n'
            (collapseRunsAux jsWs ' ' text.data false) false)).length
        ≤ (collapseRunsAux (fun c => c = '\n') '\n'
            (collapseRunsAux jsWs ' ' text.data false) false).length := jsTrim_length_le _
      _ ≤ (collapseRunsAux jsWs ' ' text.data false).length :=
          collapseRunsAux_length_le _ _ _ _
      _ ≤ text.data.length := collapseRunsAux_length_le _ _ _ _
  calc (wordsOf (jsNormalize text.data)).length
      ≤ (jsNormalize text.data).length + 1 := wordsAux_length_le _ []
    _ ≤ text.data.length + 1 := by omega

theorem splitIntoClauseFuel_none (text : String) (maxTokens fuel : ℕ)
    (hm : maxTokens ≤ 1) (hne : jsTrim text.data ≠ []) :
    splitIntoClauseFuel fuel text maxTokens = none := by
  obtain ⟨hpair, hhead, hlast, hnl, htrim, hctne⟩ := jsNormalize_facts text hne
  unfold splitIntoClauseFuel
  rw [if_neg (by simp [List.isEmpty_iff, hne])]
  rw [markerPass_singleton _ hnl htrim hctne]
  have hcs0 : (10 * maxTokens) / 13 = 0 := by
    apply Nat.div_eq_of_lt
    omega
  have hWne : wordsOf (jsNormalize text.data) ≠ [] := by
    obtain ⟨c, r, hcr⟩ := List.exists_cons_of_ne_nil hctne
    have hc : jsWs c = false := by
      have hh := hhead
      rw [hcr] at hh
      simpa [headNonWs] using hh
    rw [hcr]
    unfold wordsOf
    simp only [wordsAux, hc, Bool.false_eq_true, if_false]
    exact wordsAux_ne r [c] (by simp)
  have hlen : 1 ≤ (wordsOf (jsNormalize text.data)).length :=
    List.length_pos_of_ne_nil hWne
  simp only [segmentAll, segmentClause, htrim]
  rw [if_neg (by omega)]
  rw [hcs0, chunkLoop_zero _ hWne fuel 0 []]

/-! ## C4 -/

/-- C4: for every input, the Segmenter (at its default 1000-token target)
succeeds, and its output clauses, joined in order with the single spaces that
separate words, reconstruct the whitespace-normalized input exactly — no
characters are lost at split points and none are duplicated.  (The marker
patterns never consume anything because normalization removes every newline
they require, and word-window slicing partitions the word list.) -/
theorem segmenter_roundtrip (text : String) :
    ∃ units, splitIntoClause text 1000 = some units
      ∧ joinSp (units.map (fun u => u.text.data)) = jsNormalize text.data :=
  splitIntoClause_spec text 1000 (by norm_num)

/-! ## C10 -/

/-- C10: the clause splitter is total whenever the word-window size
`Math.floor(maxTokens / 1.3)` is at least 1 — in particular at the default
`maxTokens = 1000` — and the precondition is necessary: with `maxTokens ≤ 1`
the chunk size is 0, and on any input with at least one word the slicing
loop never advances, so no amount of fuel makes it terminate. -/
theorem segmenter_termination :
    (∀ (text : String) (maxTokens : ℕ), 1 ≤ (10 * maxTokens) / 13 →
        ∃ units, splitIntoClause text maxTokens = some units)
      ∧ (∀ (text : String) (maxTokens fuel : ℕ), maxTokens ≤ 1 →
          jsTrim text.data ≠ [] → splitIntoClauseFuel fuel text maxTokens = none) := by
  constructor
  · intro text m h
    obtain ⟨us, h1, _⟩ := splitIntoClause_spec text m h
    exact ⟨us, h1⟩
  · intro text m fuel hm hne
    exact splitIntoClauseFuel_none text m fuel hm hne

/-- Witness for C10: the default configuration splits "hello world", and the
degenerate configuration `maxTokens = 1` diverges on it for any fuel. -/
theorem segmenter_termination_witness :
    (∃ units, splitIntoClause "hello world" 1000 = some units)
      ∧ splitIntoClauseFuel 12 "hello world" 1 = none :=
  ⟨segmenter_termination.1 "hello world" 1000 (by norm_num),
   segmenter_termination.2 "hello world" 1 12 (by norm_num) (by decide)⟩
